import Mathlib

/-!
Shallow embedding of `qanom/annotations_evaluations/evaluate_inter_annotator.py`
(inter-annotator-agreement evaluation core) together with the metric algebra it
uses, and proofs of the specification claims about it.

Python dataframes are embedded as lists of rows plus explicitly tracked derived
columns; pandas group-by/transform operations become explicit filter/count
queries; the external matcher `eval_datasets` is an abstract function parameter.
-/

/-- One annotation row of the table (one pandas DataFrame row): a QA-unit
produced by one worker for one predicate occurrence. -/
structure Row where
  qasrl_id : String
  verb_idx : Int
  worker_id : String
  verb : Option String
  question : Option String
  is_verbal : Bool
  sentence : String
  deriving DecidableEq, Repr

/-- The annotation DataFrame: its rows plus the derived `key` column, which is
absent (`none`) until `get_worker_statistics` assigns it. -/
structure DataFrame where
  rows : List Row
  key_col : Option (List String)
  deriving DecidableEq, Repr

/-- Error conditions the evaluation can raise (Python exceptions): the
division-by-zero condition of `accuracy()` on zero instances, and the
`KeyError` of a failed dictionary lookup. -/
inductive PyExc where
  | divisionUndefined
  | keyError (k : String)
  deriving DecidableEq, Repr

/-- Modelled from the spec: `Metrics` of `annotations_evaluations.evaluate`
(module not under src/): an accumulator of `(true_positive, false_positive,
false_negative)` counts over argument predictions; all counts non-negative
integers. -/
structure Metrics where
  tp : Nat
  fp : Nat
  fn : Nat
  deriving DecidableEq, Repr

/-- Modelled from the spec: `Metrics.empty()` yields `(0,0,0)`. -/
def Metrics.empty : Metrics := ⟨0, 0, 0⟩

/-- Modelled from the spec: addition of `Metrics` is componentwise. -/
def Metrics.add (a b : Metrics) : Metrics := ⟨a.tp + b.tp, a.fp + b.fp, a.fn + b.fn⟩

instance : Add Metrics := ⟨Metrics.add⟩

instance : Zero Metrics := ⟨Metrics.empty⟩

/-- Modelled from the spec: `precision = tp/(tp+fp)`, defined as `0` (not an
error) when the denominator is `0`. -/
def Metrics.prec (m : Metrics) : ℚ :=
  if m.tp + m.fp = 0 then 0 else (m.tp : ℚ) / ((m.tp : ℚ) + (m.fp : ℚ))

/-- Modelled from the spec: `recall = tp/(tp+fn)`, defined as `0` when the
denominator is `0`. -/
def Metrics.recall (m : Metrics) : ℚ :=
  if m.tp + m.fn = 0 then 0 else (m.tp : ℚ) / ((m.tp : ℚ) + (m.fn : ℚ))

/-- Modelled from the spec: `f1 = harmonic_mean(precision, recall)`, defined as
`0` when the denominator is `0`. -/
def Metrics.f1 (m : Metrics) : ℚ :=
  if m.prec + m.recall = 0 then 0 else 2 * m.prec * m.recall / (m.prec + m.recall)

/-- Modelled from the spec: `BinaryClassificationMetrics` of
`annotations_evaluations.evaluate` (module not under src/): an accumulator of
`(tp, fp, fn, tn)` counts over the binary is-verbal judgment, with the same
additive-monoid contract as `Metrics`. -/
structure BinaryClassificationMetrics where
  tp : Nat
  fp : Nat
  fn : Nat
  tn : Nat
  deriving DecidableEq, Repr

/-- Modelled from the spec: `BinaryClassificationMetrics.empty()`. -/
def BinaryClassificationMetrics.empty : BinaryClassificationMetrics := ⟨0, 0, 0, 0⟩

/-- Modelled from the spec: componentwise addition. -/
def BinaryClassificationMetrics.add (a b : BinaryClassificationMetrics) :
    BinaryClassificationMetrics :=
  ⟨a.tp + b.tp, a.fp + b.fp, a.fn + b.fn, a.tn + b.tn⟩

instance : Add BinaryClassificationMetrics := ⟨BinaryClassificationMetrics.add⟩

instance : Zero BinaryClassificationMetrics := ⟨BinaryClassificationMetrics.empty⟩

/-- Modelled from the spec: `instances = tp+fp+fn+tn`. -/
def BinaryClassificationMetrics.instances (m : BinaryClassificationMetrics) : Nat :=
  m.tp + m.fp + m.fn + m.tn

/-- Modelled from the spec: `errors = fp+fn`. -/
def BinaryClassificationMetrics.errors (m : BinaryClassificationMetrics) : Nat :=
  m.fp + m.fn

/-- Modelled from the spec: `accuracy = (tp+tn)/instances`, undefined (signaled
as a `DivisionUndefined` condition, not silently `0`) when `instances = 0`. -/
def BinaryClassificationMetrics.accuracy (m : BinaryClassificationMetrics) :
    Except PyExc ℚ :=
  if m.instances = 0 then Except.error PyExc.divisionUndefined
  else Except.ok (((m.tp : ℚ) + (m.tn : ℚ)) / (m.instances : ℚ))

instance : AddCommMonoid Metrics where
  add_assoc a b c := by
    show Metrics.add (Metrics.add a b) c = Metrics.add a (Metrics.add b c)
    simp [Metrics.add, Nat.add_assoc]
  zero_add a := by
    show Metrics.add Metrics.empty a = a
    simp [Metrics.add, Metrics.empty]
  add_zero a := by
    show Metrics.add a Metrics.empty = a
    simp [Metrics.add, Metrics.empty]
  add_comm a b := by
    show Metrics.add a b = Metrics.add b a
    simp [Metrics.add, Nat.add_comm]
  nsmul := nsmulRec

instance : AddCommMonoid BinaryClassificationMetrics where
  add_assoc a b c := by
    show (a.add b).add c = a.add (b.add c)
    simp [BinaryClassificationMetrics.add, Nat.add_assoc]
  zero_add a := by
    show BinaryClassificationMetrics.add BinaryClassificationMetrics.empty a = a
    simp [BinaryClassificationMetrics.add, BinaryClassificationMetrics.empty]
  add_zero a := by
    show BinaryClassificationMetrics.add a BinaryClassificationMetrics.empty = a
    simp [BinaryClassificationMetrics.add, BinaryClassificationMetrics.empty]
  add_comm a b := by
    show a.add b = b.add a
    simp [BinaryClassificationMetrics.add, Nat.add_comm]
  nsmul := nsmulRec

/-- Helper for `pySplit`: walk the characters keeping the (reversed) current
word, emitting a word at each whitespace boundary. -/
def pySplitAux : List Char → List Char → List String
  | [], acc => if acc = [] then [] else [String.mk acc.reverse]
  | c :: cs, acc =>
    if c.isWhitespace then
      if acc = [] then pySplitAux cs []
      else String.mk acc.reverse :: pySplitAux cs []
    else pySplitAux cs (c :: acc)

/-- Python `str.split()` with no argument: split on whitespace runs, dropping
empty pieces. -/
def pySplit (s : String) : List String :=
  pySplitAux s.toList []

/-- A sentence map, i.e. the Python dict produced by `get_sent_map`: an
association list from `qasrl_id` to tokenized sentence, with unique keys. -/
abbrev SentMap := List (String × List String)

/-- Python dict insertion: overwrite the value if the key is present (keeping
its position), append the binding otherwise. -/
def dictInsert (m : SentMap) (k : String) (v : List String) : SentMap :=
  if m.any (fun p => p.1 = k) then m.map (fun p => if p.1 = k then (k, v) else p)
  else m ++ [(k, v)]

/-- Python dict lookup. -/
def dictLookup (m : SentMap) (k : String) : Option (List String) :=
  (m.find? (fun p => p.1 = k)).map (fun p => p.2)

/-- Embeds `get_sent_map` (line 14): `dict(zip(annot_df.qasrl_id,
annot_df.sentence.apply(str.split)))` — later rows with the same `qasrl_id`
overwrite earlier ones. -/
def get_sent_map (df : List Row) : SentMap :=
  df.foldl (fun m r => dictInsert m r.qasrl_id (pySplit r.sentence)) []

/-- Embeds `pandas.Series.unique().tolist()`: the distinct values of a column
in order of first appearance. -/
def uniqueList (l : List String) : List String :=
  l.foldl (fun acc x => if x ∈ acc then acc else acc ++ [x]) []

/-- The worker list of the evaluation functions (lines 91, 139):
`annot_df.worker_id.unique().tolist()`. -/
def workersOf (df : List Row) : List String :=
  uniqueList (df.map (fun r => r.worker_id))

/-- Embeds `annot_df[annot_df.worker_id == w].copy()` (lines 102-103, 152-153):
the sub-table of one worker's rows. -/
def workerSlice (df : List Row) (w : String) : List Row :=
  df.filter (fun r => r.worker_id = w)

/-- Embeds `itertools.permutations(workers, r=2)` (line 101). The iterator
yields the pairs of entries at distinct positions; since `workers` comes from
`unique()` and hence has no duplicate entries, position-distinctness coincides
with value-distinctness. -/
def pairsPerm (l : List String) : List (String × String) :=
  l.flatMap (fun x => ((l.filter (fun y => y ≠ x)).map (fun y => (x, y))))

/-- Embeds `itertools.combinations(workers, r=2)` (line 151): each unordered
pair once, first element before second in list order. -/
def pairsComb : List String → List (String × String)
  | [] => []
  | x :: xs => (xs.map (fun y => (x, y))) ++ pairsComb xs

/-- The result quadruple returned by one `eval_datasets` call: argument-level
`Metrics`, role-only `Metrics`, is-verbal `BinaryClassificationMetrics`, and
the auxiliary table of matching arguments. -/
structure MatchResult where
  arg_metrics : Metrics
  role_metrics : Metrics
  nom_ident_metrics : BinaryClassificationMetrics
  matching_args : List Row
  deriving DecidableEq, Repr

/-- The external matcher `eval_datasets` (imported from
`annotations_evaluations.argument_first_evaluation`, out of scope): an abstract
function of two worker sub-tables, the sentence map, and the `allow_overlaps`
flag. -/
def Matcher : Type :=
  List Row → List Row → SentMap → Bool → MatchResult

/-- The argument tuple of one `eval_datasets` invocation. -/
structure MatcherCall where
  w1_df : List Row
  w2_df : List Row
  sent_map : SentMap
  allow_overlaps : Bool
  deriving DecidableEq, Repr

/-- The single `eval_datasets` call the loops make for a worker pair
(line 105 and line 154): slices of the two workers, the sentence map of the
whole table, and `allow_overlaps=False` passed explicitly. -/
def callOf (df : List Row) (p : String × String) : MatcherCall :=
  ⟨workerSlice df p.1, workerSlice df p.2, get_sent_map df, false⟩

/-- Apply a matcher to a recorded call. -/
def applyMatcher (M : Matcher) (c : MatcherCall) : MatchResult :=
  M c.w1_df c.w2_df c.sent_map c.allow_overlaps

/-- The list of matcher invocations made by `evaluate_per_worker_iaa`
(lines 101-105): one per ordered pair from `permutations(workers, r=2)`. -/
def iaa_matcher_calls (df : List Row) : List MatcherCall :=
  (pairsPerm (workersOf df)).map (callOf df)

/-- The list of matcher invocations made by `evaluate_generator_agreement`
(lines 151-154): one per pair from `combinations(workers, r=2)`. -/
def gen_matcher_calls (df : List Row) : List MatcherCall :=
  (pairsComb (workersOf df)).map (callOf df)

/-- Python `defaultdict(list)` append `d[k].append(v)`: a total map to an
optional list, `none` meaning the key is absent. -/
def ddAppend {α : Type} (d : String → Option (List α)) (k : String) (v : α) :
    String → Option (List α) :=
  fun k' => if k' = k then some ((d k).getD [] ++ [v]) else d k'

/-- Embeds the pair loop of `evaluate_per_worker_iaa` (lines 98-110): for each
ordered worker pair, one `eval_datasets` call; the argument metrics and the
is-verbal metrics are appended to the lists keyed by the first worker of the
pair in `arg_agreements` resp. `nom_ident_agreements`. -/
def runPerWorkerLoop (M : Matcher) (df : List Row) :
    (String → Option (List Metrics)) ×
      (String → Option (List BinaryClassificationMetrics)) :=
  (pairsPerm (workersOf df)).foldl
    (fun st p =>
      let res := applyMatcher M (callOf df p)
      (ddAppend st.1 p.1 res.arg_metrics, ddAppend st.2 p.1 res.nom_ident_metrics))
    (fun _ => none, fun _ => none)

/-- Embeds the accumulation loop of `evaluate_generator_agreement`
(lines 148-164): starting from the empty metrics, `+=` of the three metric
families over each unordered worker pair's `eval_datasets` result. -/
def runGeneratorLoop (M : Matcher) (df : List Row) :
    Metrics × Metrics × BinaryClassificationMetrics :=
  (pairsComb (workersOf df)).foldl
    (fun t p =>
      let res := applyMatcher M (callOf df p)
      (t.1 + res.arg_metrics, t.2.1 + res.role_metrics,
        t.2.2 + res.nom_ident_metrics))
    (Metrics.empty, Metrics.empty, BinaryClassificationMetrics.empty)

/-- Embeds the key formula of line 45: `r['qasrl_id'] + "_" + str(r['verb_idx'])`. -/
def key_of (r : Row) : String :=
  r.qasrl_id ++ "_" ++ toString r.verb_idx

/-- The predicate-occurrence identity of a row: the `PredicateKey`
`(sentence_id, predicate_index)`. -/
def predKey (r : Row) : String × Int :=
  (r.qasrl_id, r.verb_idx)

/-- The key string of a `PredicateKey` pair; `key_of` factors through it. -/
def keyPair (p : String × Int) : String :=
  p.1 ++ "_" ++ toString p.2

/-- Lexicographic comparison of char lists, used to model the sort order of
pandas group keys. -/
def charListLe : List Char → List Char → Bool
  | [], _ => true
  | _ :: _, [] => false
  | c :: cs, d :: ds => if c = d then charListLe cs ds else decide (c < d)

/-- String comparison for the group-key sort. -/
def strLe (a b : String) : Bool := charListLe a.data b.data

/-- Insert a string into a sorted list of strings. -/
def insertSorted (x : String) : List String → List String
  | [] => [x]
  | y :: ys => if strLe x y then x :: y :: ys else y :: insertSorted x ys

/-- Insertion sort for strings. -/
def sortStrings (l : List String) : List String :=
  l.foldr insertSorted []

/-- The group keys of `df.groupby("worker_id")` (line 46): the distinct
worker ids, sorted (pandas sorts group keys). -/
def sortedWorkers (df : List Row) : List String :=
  sortStrings (df.map (fun r => r.worker_id)).dedup

lemma insertSorted_perm (x : String) (l : List String) :
    (insertSorted x l).Perm (x :: l) := by
  induction l with
  | nil => exact List.Perm.refl _
  | cons y ys ih =>
    rw [insertSorted]
    by_cases h : strLe x y = true
    · rw [if_pos h]
    · rw [if_neg h]
      exact (ih.cons y).trans (List.Perm.swap x y ys)

lemma sortStrings_perm (l : List String) : (sortStrings l).Perm l := by
  induction l with
  | nil => exact List.Perm.refl _
  | cons x xs ih =>
    rw [sortStrings, List.foldr_cons]
    exact (insertSorted_perm x _).trans (ih.cons x)

/-- Per-worker raw counts of `get_worker_statistics` (lines 50-53). -/
structure BaseStats where
  num_predicates : Nat
  num_qas : Nat
  deriving DecidableEq, Repr

/-- Embeds `get_worker_statistics` (lines 42-53). The function mutates the
caller's table when the `key` column is absent (`df['key'] = ...`, line 45), so
it is embedded with explicit state passing: it returns the table after the call
together with the statistics. `num-predicates` is `by_worker.key.nunique()`
(distinct key values of the worker's rows); `num-QAs` is
`by_worker.question.count()` (non-null questions only). -/
def get_worker_statistics (df : DataFrame) : DataFrame × List (String × BaseStats) :=
  let df' : DataFrame :=
    if df.key_col = none then { df with key_col := some (df.rows.map key_of) } else df
  let keys : List String := df'.key_col.getD []
  (df',
    (sortedWorkers df'.rows).map (fun w =>
      (w,
        { num_predicates :=
            (((df'.rows.zip keys).filter (fun p => p.1.worker_id = w)).map
              (fun p => p.2)).dedup.length,
          num_qas :=
            (df'.rows.filter (fun r => r.worker_id = w)).countP
              (fun r => r.question.isSome) })))

/-- The per-worker record after the update of lines 130-131: the raw counts
extended with the aggregated argument agreement and the is-verbal accuracy. -/
structure WorkerStats where
  num_predicates : Nat
  num_qas : Nat
  arg_agreement : Metrics
  is_verbal_accuracy : ℚ
  deriving DecidableEq, Repr

/-- Embeds the statistics loop of `evaluate_per_worker_iaa` (lines 124-131):
for each worker of the general statistics, look up its entry in the
per-worker performance dictionaries (a missing key is a `KeyError`), call
`accuracy()` on the summed is-verbal metrics (a `DivisionUndefined` on zero
instances), and extend the worker's record. -/
def statsLoop (argPerf : String → Option Metrics)
    (nomPerf : String → Option BinaryClassificationMetrics) :
    List (String × BaseStats) → Except PyExc (List (String × WorkerStats))
  | [] => Except.ok []
  | (w, st) :: rest => do
    let argM ← match argPerf w with
      | none => Except.error (PyExc.keyError w)
      | some m => Except.ok m
    let nomM ← match nomPerf w with
      | none => Except.error (PyExc.keyError w)
      | some m => Except.ok m
    let acc ← nomM.accuracy
    let rest' ← statsLoop argPerf nomPerf rest
    Except.ok ((w, ⟨st.num_predicates, st.num_qas, argM, acc⟩) :: rest')

/-- Embeds `evaluate_per_worker_iaa` (lines 88-132): run the ordered pair loop,
sum each worker's agreement lists into the performance dictionaries
(lines 112-119), compute the general worker statistics (which mutates the
table, line 123), and extend each worker's record (lines 124-131). Returns the
table after the call and either the statistics or the raised exception. -/
def evaluate_per_worker_iaa (M : Matcher) (df : DataFrame) :
    DataFrame × Except PyExc (List (String × WorkerStats)) :=
  let ag := runPerWorkerLoop M df.rows
  let worker_arg_performance : String → Option Metrics :=
    fun w => (ag.1 w).map List.sum
  let worker_isnom_performance : String → Option BinaryClassificationMetrics :=
    fun w => (ag.2 w).map List.sum
  let gs := get_worker_statistics df
  (gs.1, statsLoop worker_arg_performance worker_isnom_performance gs.2)

/-- The global report printed by `evaluate_generator_agreement` (lines 166-169):
overall argument F1, role F1, and is-verbal accuracy. -/
structure GenReport where
  arg_f1 : ℚ
  role_f1 : ℚ
  is_verbal_accuracy : ℚ
  deriving DecidableEq, Repr

/-- Embeds `evaluate_generator_agreement` (lines 135-169, with
`verbose=False`): run the unordered pair loop folding all results into the
three global accumulators, then report overall F1s and accuracy; the final
`accuracy()` call raises on zero instances. The function operates on a copy of
the table (line 141) and never mutates the caller's table. -/
def evaluate_generator_agreement (M : Matcher) (df : DataFrame) :
    Except PyExc GenReport :=
  let t := runGeneratorLoop M df.rows
  match t.2.2.accuracy with
  | Except.error e => Except.error e
  | Except.ok acc => Except.ok ⟨t.1.f1, t.2.1.f1, acc⟩

/-- Embeds `set_n_workers` (lines 18-22):
`df.groupby(['qasrl_id','verb_idx']).worker_id.transform(pd.Series.nunique)` —
each row is assigned the number of distinct workers that annotated its
predicate occurrence. The assigned column is embedded as the list of per-row
values. -/
def set_n_workers (df : List Row) : List (Row × Nat) :=
  df.map (fun r =>
    (r, ((df.filter (fun s => s.qasrl_id = r.qasrl_id ∧ s.verb_idx = r.verb_idx)).map
          (fun s => s.worker_id)).dedup.length))

/-- Embeds `set_n_roles` (lines 24-28):
`df.groupby(['qasrl_id','verb_idx','worker_id']).verb.transform(pd.Series.count)`
— each row is assigned the number of non-null `verb` values among the rows of
its `(qasrl_id, verb_idx, worker_id)` group (`pd.Series.count` counts the
non-NA entries of the `verb` series). -/
def set_n_roles (df : List Row) : List (Row × Nat) :=
  df.map (fun r =>
    (r, (df.filter (fun s =>
          s.qasrl_id = r.qasrl_id ∧ s.verb_idx = r.verb_idx ∧
            s.worker_id = r.worker_id)).countP (fun s => s.verb.isSome)))

/-- The per-group role count as claim C4 states it: the number of the group's
rows with a non-null `question` field. Stated from the claim's words, for
comparison with `set_n_roles`. -/
def n_roles_claimed (df : List Row) (r : Row) : Nat :=
  (df.filter (fun s =>
      s.qasrl_id = r.qasrl_id ∧ s.verb_idx = r.verb_idx ∧
        s.worker_id = r.worker_id)).countP (fun s => s.question.isSome)

/-! Helper lemmas about the embedded list operations. -/

lemma uniqueList_go_mem (l : List String) :
    ∀ (acc : List String) (x : String),
      x ∈ l.foldl (fun acc x => if x ∈ acc then acc else acc ++ [x]) acc ↔
        x ∈ acc ∨ x ∈ l := by
  induction l with
  | nil => intro acc x; simp
  | cons a t ih =>
    intro acc x
    simp only [List.foldl_cons]
    rw [ih]
    by_cases hax : a ∈ acc
    · simp only [if_pos hax, List.mem_cons]
      constructor
      · rintro (h | h)
        · exact Or.inl h
        · exact Or.inr (Or.inr h)
      · rintro (h | h | h)
        · exact Or.inl h
        · exact Or.inl (h ▸ hax)
        · exact Or.inr h
    · simp only [if_neg hax, List.mem_append, List.mem_singleton, List.mem_cons]
      tauto

lemma uniqueList_mem (l : List String) (x : String) :
    x ∈ uniqueList l ↔ x ∈ l := by
  rw [uniqueList, uniqueList_go_mem]
  simp

lemma uniqueList_go_nodup (l : List String) :
    ∀ (acc : List String), acc.Nodup →
      (l.foldl (fun acc x => if x ∈ acc then acc else acc ++ [x]) acc).Nodup := by
  induction l with
  | nil => intro acc h; simpa using h
  | cons a t ih =>
    intro acc h
    simp only [List.foldl_cons]
    by_cases hax : a ∈ acc
    · rw [if_pos hax]; exact ih acc h
    · rw [if_neg hax]
      refine ih _ ?_
      simp [List.nodup_append, h, hax]

lemma uniqueList_nodup (l : List String) : (uniqueList l).Nodup :=
  uniqueList_go_nodup l [] List.nodup_nil

lemma uniqueList_length (l : List String) :
    (uniqueList l).length = l.toFinset.card := by
  have h1 : (uniqueList l).toFinset = l.toFinset := by
    apply Finset.ext
    intro x
    simp [List.mem_toFinset, uniqueList_mem]
  calc (uniqueList l).length = (uniqueList l).toFinset.card :=
        (List.toFinset_card_of_nodup (uniqueList_nodup l)).symm
    _ = l.toFinset.card := by rw [h1]

lemma workersOf_nodup (df : List Row) : (workersOf df).Nodup :=
  uniqueList_nodup _

lemma workersOf_mem (df : List Row) (w : String) :
    w ∈ workersOf df ↔ w ∈ df.map (fun r => r.worker_id) :=
  uniqueList_mem _ _

lemma mem_pairsPerm (l : List String) (a b : String) :
    (a, b) ∈ pairsPerm l ↔ a ∈ l ∧ b ∈ l ∧ b ≠ a := by
  simp only [pairsPerm, List.mem_flatMap, List.mem_map, List.mem_filter,
    decide_eq_true_eq]
  constructor
  · rintro ⟨x, hx, y, ⟨hy, hne⟩, heq⟩
    obtain ⟨rfl, rfl⟩ := Prod.mk.injEq .. ▸ And.intro (congrArg Prod.fst heq)
      (congrArg Prod.snd heq)
    exact ⟨hx, hy, hne⟩
  · rintro ⟨ha, hb, hne⟩
    exact ⟨a, ha, b, ⟨hb, hne⟩, rfl⟩

lemma filter_ne_length (l : List String) (x : String)
    (h : l.Nodup) (hx : x ∈ l) :
    (l.filter (fun y => y ≠ x)).length = l.length - 1 := by
  induction l with
  | nil => cases hx
  | cons a t ih =>
    by_cases hax : a = x
    · subst hax
      have hnot : a ∉ t := (List.nodup_cons.mp h).1
      have hfix : t.filter (fun y => y ≠ a) = t := by
        apply List.filter_eq_self.mpr
        intro y hy
        simp only [decide_eq_true_eq]
        exact fun hya => hnot (hya ▸ hy)
      have hstep : (a :: t).filter (fun y => y ≠ a) = t.filter (fun y => y ≠ a) := by
        simp [List.filter_cons]
      rw [hstep, hfix, List.length_cons]
      omega
    · have hxt : x ∈ t := by
        rcases List.mem_cons.mp hx with h1 | h1
        · exact absurd h1.symm hax
        · exact h1
      have ht : 1 ≤ t.length := List.length_pos.mpr (List.ne_nil_of_mem hxt)
      have hrec := ih (List.nodup_cons.mp h).2 hxt
      have : (a :: t).filter (fun y => y ≠ x) = a :: t.filter (fun y => y ≠ x) := by
        simp [List.filter_cons, hax]
      rw [this, List.length_cons, List.length_cons, hrec]
      omega

lemma length_pairsPerm (l : List String) (h : l.Nodup) :
    (pairsPerm l).length = l.length * (l.length - 1) := by
  rw [pairsPerm, List.length_flatMap]
  have hmap : l.map (List.length ∘ fun x => (l.filter (fun y => y ≠ x)).map (fun y => (x, y)))
      = l.map (fun _ => l.length - 1) := by
    apply List.map_congr_left
    intro x hx
    simp only [Function.comp_apply, List.length_map]
    exact filter_ne_length l x h hx
  rw [hmap, List.map_const', List.sum_replicate, smul_eq_mul]

lemma nodup_pairsPerm (l : List String) (h : l.Nodup) : (pairsPerm l).Nodup := by
  rw [pairsPerm, List.nodup_flatMap]
  constructor
  · intro x _
    exact (h.filter _).map (fun y1 y2 h2 => congrArg Prod.snd h2)
  · apply List.Pairwise.imp ?_ h
    intro a b hab
    intro p hpa hpb
    simp only [List.mem_map] at hpa hpb
    obtain ⟨y, _, rfl⟩ := hpa
    obtain ⟨z, _, hz⟩ := hpb
    exact hab (congrArg Prod.fst hz).symm

lemma countP_eq_ite_of_nodup {α : Type} [DecidableEq α] (l : List α)
    (h : l.Nodup) (x : α) :
    l.countP (fun y => y = x) = if x ∈ l then 1 else 0 := by
  induction l with
  | nil => simp
  | cons a t ih =>
    have hnd := List.nodup_cons.mp h
    rw [List.countP_cons, ih hnd.2]
    by_cases hax : a = x
    · subst hax
      simp [hnd.1]
    · have hxa : ¬ x = a := fun h1 => hax h1.symm
      by_cases hxt : x ∈ t
      · simp [hxt, hax, hxa]
      · simp [hxt, hax, hxa]

lemma countP_pair_eq_zero_of_not_mem {p : String × String}
    (l : List (String × String)) (h : p ∉ l) :
    l.countP (fun q => q = p) = 0 := by
  rw [List.countP_eq_zero]
  intro q hq
  simp only [decide_eq_true_eq]
  intro hqp
  exact h (hqp ▸ hq)

lemma countP_pairsPerm (l : List String) (h : l.Nodup) (a b : String) :
    (pairsPerm l).countP (fun q => q = (a, b))
      = if a ∈ l ∧ b ∈ l ∧ a ≠ b then 1 else 0 := by
  rw [countP_eq_ite_of_nodup _ (nodup_pairsPerm l h)]
  by_cases hm : a ∈ l ∧ b ∈ l ∧ a ≠ b
  · rw [if_pos hm, if_pos ((mem_pairsPerm l a b).mpr ⟨hm.1, hm.2.1, hm.2.2.symm⟩)]
  · rw [if_neg hm, if_neg ?_]
    intro hmem
    obtain ⟨h1, h2, h3⟩ := (mem_pairsPerm l a b).mp hmem
    exact hm ⟨h1, h2, h3.symm⟩

lemma mem_pairsComb (l : List String) (a b : String) :
    (a, b) ∈ pairsComb l → a ∈ l ∧ b ∈ l := by
  induction l with
  | nil => intro h; cases h
  | cons x xs ih =>
    intro hmem
    rcases List.mem_append.mp hmem with hl | hr
    · obtain ⟨y, hy, heq⟩ := List.mem_map.mp hl
      have ha : x = a := congrArg Prod.fst heq
      have hb : y = b := congrArg Prod.snd heq
      subst ha; subst hb
      exact ⟨List.mem_cons_self x xs, List.mem_cons_of_mem x hy⟩
    · obtain ⟨h1, h2⟩ := ih hr
      exact ⟨List.mem_cons_of_mem x h1, List.mem_cons_of_mem x h2⟩

lemma two_mul_length_pairsComb (l : List String) :
    2 * (pairsComb l).length = l.length * (l.length - 1) := by
  induction l with
  | nil => rfl
  | cons x xs ih =>
    have h1 : (pairsComb (x :: xs)).length = xs.length + (pairsComb xs).length := by
      simp [pairsComb]
    rw [h1, List.length_cons, Nat.mul_add, ih]
    cases hxs : xs.length with
    | zero => simp
    | succ m =>
      simp only [Nat.add_sub_cancel]
      ring

lemma countP_map_pair (xs : List String) (x a b : String) :
    (xs.map (fun y => (x, y))).countP (fun q => q = (a, b))
      = if x = a then xs.countP (fun y => y = b) else 0 := by
  rw [List.countP_map]
  by_cases hxa : x = a
  · subst hxa
    rw [if_pos rfl]
    apply List.countP_congr
    intro y _
    simp [Prod.ext_iff]
  · rw [if_neg hxa, List.countP_eq_zero]
    intro y _
    simp only [Function.comp_apply, decide_eq_true_eq, Prod.mk.injEq]
    rintro ⟨h1, _⟩
    exact hxa h1

lemma countP_pairsComb_pair (l : List String) (h : l.Nodup) (a b : String)
    (ha : a ∈ l) (hb : b ∈ l) (hab : a ≠ b) :
    (pairsComb l).countP (fun q => q = (a, b))
      + (pairsComb l).countP (fun q => q = (b, a)) = 1 := by
  induction l with
  | nil => cases ha
  | cons x xs ih =>
    have hnotmem : x ∉ xs := (List.nodup_cons.mp h).1
    have hnodup : xs.Nodup := (List.nodup_cons.mp h).2
    have hout : ∀ c d : String, c ∉ xs →
        (pairsComb xs).countP (fun q => q = (c, d)) = 0 := by
      intro c d hc
      apply countP_pair_eq_zero_of_not_mem
      intro hm
      exact hc (mem_pairsComb xs c d hm).1
    have hout2 : ∀ c d : String, d ∉ xs →
        (pairsComb xs).countP (fun q => q = (c, d)) = 0 := by
      intro c d hd
      apply countP_pair_eq_zero_of_not_mem
      intro hm
      exact hd (mem_pairsComb xs c d hm).2
    have hxs_cnt : ∀ c : String, c ∈ xs → xs.countP (fun y => y = c) = 1 := by
      intro c hc
      rw [countP_eq_ite_of_nodup xs hnodup c, if_pos hc]
    simp only [pairsComb, List.countP_append, countP_map_pair]
    by_cases hxa : x = a
    · subst hxa
      have hbxs : b ∈ xs := by
        rcases List.mem_cons.mp hb with h1 | h1
        · exact absurd h1.symm hab
        · exact h1
      rw [if_pos rfl, if_neg hab, hxs_cnt b hbxs,
        hout x b hnotmem, hout2 b x hnotmem]
    · by_cases hxb : x = b
      · subst hxb
        have haxs : a ∈ xs := by
          rcases List.mem_cons.mp ha with h1 | h1
          · exact absurd h1.symm hxa
          · exact h1
        rw [if_neg hxa, if_pos rfl, hxs_cnt a haxs,
          hout x a hnotmem, hout2 a x hnotmem]
      · have haxs : a ∈ xs := by
          rcases List.mem_cons.mp ha with h1 | h1
          · exact absurd h1.symm hxa
          · exact h1
        have hbxs : b ∈ xs := by
          rcases List.mem_cons.mp hb with h1 | h1
          · exact absurd h1.symm hxb
          · exact h1
        rw [if_neg hxa, if_neg hxb]
        have := ih hnodup haxs hbxs
        omega

lemma foldl_prod_split {α β γ : Type} (f : α → γ → α) (g : β → γ → β) :
    ∀ (l : List γ) (a : α) (b : β),
      l.foldl (fun st p => (f st.1 p, g st.2 p)) (a, b)
        = (l.foldl f a, l.foldl g b) := by
  intro l
  induction l with
  | nil => intro a b; rfl
  | cons p t ih => intro a b; simp only [List.foldl_cons]; exact ih (f a p) (g b p)

lemma foldl_ddAppend {α γ : Type} (val : γ → α) (key : γ → String) :
    ∀ (l : List γ) (d : String → Option (List α)) (k : String),
      (l.foldl (fun d p => ddAppend d (key p) (val p)) d) k
        = if (d k).isSome ∨ l.any (fun p => key p = k)
          then some ((d k).getD [] ++ (l.filter (fun p => key p = k)).map val)
          else none := by
  intro l
  induction l with
  | nil =>
    intro d k
    simp only [List.foldl_nil, List.any_nil, or_false, List.filter_nil,
      List.map_nil, List.append_nil]
    cases hdk : d k with
    | none => simp
    | some v => simp
  | cons p t ih =>
    intro d k
    simp only [List.foldl_cons]
    rw [ih (ddAppend d (key p) (val p)) k]
    by_cases hk : key p = k
    · have hd' : ddAppend d (key p) (val p) k
          = some ((d k).getD [] ++ [val p]) := by
        rw [ddAppend, if_pos hk.symm, hk]
      have hany : (p :: t).any (fun q => key q = k) = true := by
        simp [List.any_cons, hk]
      have hfil : (p :: t).filter (fun q => key q = k)
          = p :: t.filter (fun q => key q = k) := by
        simp [List.filter_cons, hk]
      rw [hd', hany, hfil]
      simp only [Option.isSome_some, true_or, if_true, Option.getD_some,
        List.map_cons, or_true]
      rw [List.append_assoc]
      rfl
    · have hd' : ddAppend d (key p) (val p) k = d k := by
        rw [ddAppend, if_neg (fun h1 => hk (h1.symm))]
      have hany : (p :: t).any (fun q => key q = k)
          = t.any (fun q => key q = k) := by
        simp [List.any_cons, hk]
      have hfil : (p :: t).filter (fun q => key q = k)
          = t.filter (fun q => key q = k) := by
        simp [List.filter_cons, hk]
      rw [hd', hany, hfil]

lemma foldl_add_eq_sum {M : Type} [AddCommMonoid M] :
    ∀ (l : List M) (a : M), l.foldl (fun x y => x + y) a = a + l.sum := by
  intro l
  induction l with
  | nil => intro a; simp
  | cons x t ih =>
    intro a
    simp only [List.foldl_cons, List.sum_cons, ih, add_assoc]

/-- The per-worker loop state characterized pointwise: a worker's agreement
list is present exactly when some ordered pair starts with it, and then holds
the matcher results of those pairs in iteration order. -/
lemma runPerWorkerLoop_fst (M : Matcher) (df : List Row) (w : String) :
    (runPerWorkerLoop M df).1 w
      = if (pairsPerm (workersOf df)).any (fun p => p.1 = w)
        then some (((pairsPerm (workersOf df)).filter (fun p => p.1 = w)).map
          (fun p => (applyMatcher M (callOf df p)).arg_metrics))
        else none := by
  have h1 : runPerWorkerLoop M df
      = (List.foldl (fun d p => ddAppend d p.1 (applyMatcher M (callOf df p)).arg_metrics)
          (fun _ => none) (pairsPerm (workersOf df)),
         List.foldl (fun d p => ddAppend d p.1 (applyMatcher M (callOf df p)).nom_ident_metrics)
          (fun _ => none) (pairsPerm (workersOf df))) :=
    foldl_prod_split
      (fun d (p : String × String) => ddAppend d p.1 (applyMatcher M (callOf df p)).arg_metrics)
      (fun d (p : String × String) => ddAppend d p.1 (applyMatcher M (callOf df p)).nom_ident_metrics)
      (pairsPerm (workersOf df)) (fun _ => none) (fun _ => none)
  rw [h1]
  have h2 := foldl_ddAppend
      (fun (q : String × String) => (applyMatcher M (callOf df q)).arg_metrics)
      (fun (q : String × String) => q.1) (pairsPerm (workersOf df)) (fun _ => none) w
  refine Eq.trans h2 ?_
  simp only [Option.isSome_none, Bool.false_eq_true, false_or, Option.getD_none,
    List.nil_append]

/-- Companion of `runPerWorkerLoop_fst` for the is-verbal dictionary. -/
lemma runPerWorkerLoop_snd (M : Matcher) (df : List Row) (w : String) :
    (runPerWorkerLoop M df).2 w
      = if (pairsPerm (workersOf df)).any (fun p => p.1 = w)
        then some (((pairsPerm (workersOf df)).filter (fun p => p.1 = w)).map
          (fun p => (applyMatcher M (callOf df p)).nom_ident_metrics))
        else none := by
  have h1 : runPerWorkerLoop M df
      = (List.foldl (fun d p => ddAppend d p.1 (applyMatcher M (callOf df p)).arg_metrics)
          (fun _ => none) (pairsPerm (workersOf df)),
         List.foldl (fun d p => ddAppend d p.1 (applyMatcher M (callOf df p)).nom_ident_metrics)
          (fun _ => none) (pairsPerm (workersOf df))) :=
    foldl_prod_split
      (fun d (p : String × String) => ddAppend d p.1 (applyMatcher M (callOf df p)).arg_metrics)
      (fun d (p : String × String) => ddAppend d p.1 (applyMatcher M (callOf df p)).nom_ident_metrics)
      (pairsPerm (workersOf df)) (fun _ => none) (fun _ => none)
  rw [h1]
  have h2 := foldl_ddAppend
      (fun (q : String × String) => (applyMatcher M (callOf df q)).nom_ident_metrics)
      (fun (q : String × String) => q.1) (pairsPerm (workersOf df)) (fun _ => none) w
  refine Eq.trans h2 ?_
  simp only [Option.isSome_none, Bool.false_eq_true, false_or, Option.getD_none,
    List.nil_append]

/-- The generator loop is the componentwise sum of the per-pair results. -/
lemma runGeneratorLoop_eq_sums (M : Matcher) (df : List Row) :
    runGeneratorLoop M df
      = (((pairsComb (workersOf df)).map
            (fun p => (applyMatcher M (callOf df p)).arg_metrics)).sum,
         ((pairsComb (workersOf df)).map
            (fun p => (applyMatcher M (callOf df p)).role_metrics)).sum,
         ((pairsComb (workersOf df)).map
            (fun p => (applyMatcher M (callOf df p)).nom_ident_metrics)).sum) := by
  rw [runGeneratorLoop]
  have hgen : ∀ (l : List (String × String)) (a r : Metrics)
      (n : BinaryClassificationMetrics),
      l.foldl (fun t p =>
          (t.1 + (applyMatcher M (callOf df p)).arg_metrics,
           t.2.1 + (applyMatcher M (callOf df p)).role_metrics,
           t.2.2 + (applyMatcher M (callOf df p)).nom_ident_metrics)) (a, r, n)
        = (a + (l.map (fun p => (applyMatcher M (callOf df p)).arg_metrics)).sum,
           r + (l.map (fun p => (applyMatcher M (callOf df p)).role_metrics)).sum,
           n + (l.map (fun p => (applyMatcher M (callOf df p)).nom_ident_metrics)).sum) := by
    intro l
    induction l with
    | nil => intro a r n; simp
    | cons p t ih =>
      intro a r n
      simp only [List.foldl_cons, List.map_cons, List.sum_cons, ih, add_assoc]
  rw [hgen]
  show (Metrics.empty + _, Metrics.empty + _, BinaryClassificationMetrics.empty + _) = _
  rw [show Metrics.empty = (0 : Metrics) from rfl,
    show BinaryClassificationMetrics.empty = (0 : BinaryClassificationMetrics) from rfl,
    zero_add, zero_add, zero_add]

/-- Instance counts add up over sums of is-verbal metric lists. -/
lemma instances_sum (l : List BinaryClassificationMetrics) :
    l.sum.instances = (l.map (fun m => m.instances)).sum := by
  induction l with
  | nil => rfl
  | cons m t ih =>
    simp only [List.sum_cons, List.map_cons]
    show (m + t.sum).instances = m.instances + (t.map (fun m => m.instances)).sum
    rw [← ih]
    show (m.add t.sum).instances = _
    simp [BinaryClassificationMetrics.add, BinaryClassificationMetrics.instances]
    omega

lemma runPerWorkerLoop_fst_getD (M : Matcher) (df : List Row) (w : String) :
    ((runPerWorkerLoop M df).1 w).getD []
      = ((pairsPerm (workersOf df)).filter (fun p => p.1 = w)).map
          (fun p => (applyMatcher M (callOf df p)).arg_metrics) := by
  rw [runPerWorkerLoop_fst]
  by_cases h : (pairsPerm (workersOf df)).any (fun p => p.1 = w) = true
  · rw [if_pos h, Option.getD_some]
  · rw [if_neg h, Option.getD_none]
    symm
    rw [List.map_eq_nil_iff]
    rw [List.filter_eq_nil_iff]
    intro p hp
    have := List.any_eq_false.mp (Bool.eq_false_iff.mpr h) p hp
    simpa using this

lemma runPerWorkerLoop_snd_getD (M : Matcher) (df : List Row) (w : String) :
    ((runPerWorkerLoop M df).2 w).getD []
      = ((pairsPerm (workersOf df)).filter (fun p => p.1 = w)).map
          (fun p => (applyMatcher M (callOf df p)).nom_ident_metrics) := by
  rw [runPerWorkerLoop_snd]
  by_cases h : (pairsPerm (workersOf df)).any (fun p => p.1 = w) = true
  · rw [if_pos h, Option.getD_some]
  · rw [if_neg h, Option.getD_none]
    symm
    rw [List.map_eq_nil_iff]
    rw [List.filter_eq_nil_iff]
    intro p hp
    have := List.any_eq_false.mp (Bool.eq_false_iff.mpr h) p hp
    simpa using this

/-! The claims. -/

/-- C1: aggregation is an order-independent monoid fold — for every annotation
table and every permutation of the sequence of pairwise comparison results, the
per-worker totals of `evaluate_per_worker_iaa` (the sum of each worker's list
of `Metrics` / `BinaryClassificationMetrics`) and the global totals of
`evaluate_generator_agreement` (repeated `+=` from the empty metrics) are
identical to the totals obtained from any other ordering of the same
results. -/
theorem C1_aggregation_order_independent (M : Matcher) (df : DataFrame) :
    (∀ rs : List MatchResult,
        rs.Perm ((pairsComb (workersOf df.rows)).map
          (fun p => applyMatcher M (callOf df.rows p))) →
        ((rs.map (fun r => r.arg_metrics)).sum = (runGeneratorLoop M df.rows).1
          ∧ (rs.map (fun r => r.role_metrics)).sum = (runGeneratorLoop M df.rows).2.1
          ∧ (rs.map (fun r => r.nom_ident_metrics)).sum = (runGeneratorLoop M df.rows).2.2))
    ∧ (∀ (w : String) (rs : List MatchResult),
        rs.Perm (((pairsPerm (workersOf df.rows)).filter (fun p => p.1 = w)).map
          (fun p => applyMatcher M (callOf df.rows p))) →
        ((rs.map (fun r => r.arg_metrics)).sum
            = (((runPerWorkerLoop M df.rows).1 w).getD []).sum
          ∧ (rs.map (fun r => r.nom_ident_metrics)).sum
            = (((runPerWorkerLoop M df.rows).2 w).getD []).sum)) := by
  constructor
  · intro rs hperm
    rw [runGeneratorLoop_eq_sums]
    refine ⟨?_, ?_, ?_⟩
    · rw [(hperm.map (fun r => r.arg_metrics)).sum_eq, List.map_map]
      rfl
    · rw [(hperm.map (fun r => r.role_metrics)).sum_eq, List.map_map]
      rfl
    · rw [(hperm.map (fun r => r.nom_ident_metrics)).sum_eq, List.map_map]
      rfl
  · intro w rs hperm
    rw [runPerWorkerLoop_fst_getD, runPerWorkerLoop_snd_getD]
    constructor
    · rw [(hperm.map (fun r => r.arg_metrics)).sum_eq, List.map_map]
      rfl
    · rw [(hperm.map (fun r => r.nom_ident_metrics)).sum_eq, List.map_map]
      rfl

/-- Fixture: three rows of three distinct workers on a shared predicate. -/
def wRowA : Row :=
  ⟨"sent1", 0, "alice", some "sale", some "what was sold", true, "the sale closed"⟩

/-- Fixture: second worker's row. -/
def wRowB : Row :=
  ⟨"sent1", 0, "bob", some "sale", none, false, "the sale closed"⟩

/-- Fixture: third worker's row. -/
def wRowC : Row :=
  ⟨"sent1", 0, "carol", some "sale", some "who sold", true, "the sale closed"⟩

/-- Fixture table with three workers. -/
def testDf : DataFrame := ⟨[wRowA, wRowB, wRowC], none⟩

/-- Fixture matcher: produces input-dependent metric values. -/
def testMatcher : Matcher := fun d1 d2 _ o =>
  ⟨⟨d1.length, d2.length, if o then 5 else 0⟩, ⟨1, 0, 1⟩,
    ⟨d1.length, 0, 0, d2.length⟩, []⟩

/-- C1 witness: the order-independence theorem applied to the reversed result
sequences of the fixture table. -/
theorem C1_aggregation_order_independent_witness :
    (((((pairsComb (workersOf testDf.rows)).map
          (fun p => applyMatcher testMatcher (callOf testDf.rows p))).reverse).map
        (fun r => r.arg_metrics)).sum = (runGeneratorLoop testMatcher testDf.rows).1)
    ∧ (((((pairsPerm (workersOf testDf.rows)).filter (fun p => p.1 = "alice")).map
          (fun p => applyMatcher testMatcher (callOf testDf.rows p))).reverse).map
        (fun r => r.arg_metrics)).sum
        = (((runPerWorkerLoop testMatcher testDf.rows).1 "alice").getD []).sum :=
  ⟨((C1_aggregation_order_independent testMatcher testDf).1 _
      (List.reverse_perm _)).1,
   ((C1_aggregation_order_independent testMatcher testDf).2 "alice" _
      (List.reverse_perm _)).1⟩

/-- C2: for a table with `n` distinct worker ids, `evaluate_per_worker_iaa`
invokes the matcher exactly once per ordered pair `(w1, w2)` with `w1 ≠ w2` —
exactly `n·(n-1)` invocations — and appends each comparison's argument
`Metrics` and is-verbal `BinaryClassificationMetrics` to the lists attributed
to the first worker `w1` of the pair. -/
theorem C2_ordered_pairing_per_worker (M : Matcher) (df : DataFrame) :
    ((pairsPerm (workersOf df.rows)).length
        = (df.rows.map (fun r => r.worker_id)).toFinset.card
            * ((df.rows.map (fun r => r.worker_id)).toFinset.card - 1))
    ∧ (∀ w1 w2 : String,
        (pairsPerm (workersOf df.rows)).countP (fun q => q = (w1, w2))
          = if w1 ∈ workersOf df.rows ∧ w2 ∈ workersOf df.rows ∧ w1 ≠ w2
            then 1 else 0)
    ∧ (iaa_matcher_calls df.rows = (pairsPerm (workersOf df.rows)).map (callOf df.rows))
    ∧ (∀ w : String,
        (runPerWorkerLoop M df.rows).1 w
            = (if (pairsPerm (workersOf df.rows)).any (fun p => p.1 = w)
               then some (((pairsPerm (workersOf df.rows)).filter (fun p => p.1 = w)).map
                 (fun p => (applyMatcher M (callOf df.rows p)).arg_metrics))
               else none)
          ∧ (runPerWorkerLoop M df.rows).2 w
            = (if (pairsPerm (workersOf df.rows)).any (fun p => p.1 = w)
               then some (((pairsPerm (workersOf df.rows)).filter (fun p => p.1 = w)).map
                 (fun p => (applyMatcher M (callOf df.rows p)).nom_ident_metrics))
               else none)) := by
  refine ⟨?_, ?_, rfl, ?_⟩
  · rw [length_pairsPerm _ (workersOf_nodup df.rows)]
    rw [workersOf, uniqueList_length]
  · intro w1 w2
    exact countP_pairsPerm _ (workersOf_nodup df.rows) w1 w2
  · intro w
    exact ⟨runPerWorkerLoop_fst M df.rows w, runPerWorkerLoop_snd M df.rows w⟩

lemma mem_pairsComb_ne (l : List String) (h : l.Nodup) (a b : String) :
    (a, b) ∈ pairsComb l → a ≠ b := by
  induction l with
  | nil => intro hm; cases hm
  | cons x xs ih =>
    intro hmem
    have hnotmem : x ∉ xs := (List.nodup_cons.mp h).1
    rcases List.mem_append.mp hmem with hl | hr
    · obtain ⟨y, hy, heq⟩ := List.mem_map.mp hl
      have ha : x = a := congrArg Prod.fst heq
      have hb : y = b := congrArg Prod.snd heq
      subst ha; subst hb
      exact fun hxy => hnotmem (hxy ▸ hy)
    · exact ih (List.nodup_cons.mp h).2 hr

/-- C3: for a table with `n` distinct worker ids,
`evaluate_generator_agreement` invokes the matcher exactly once per unordered
pair of distinct workers — exactly `n·(n-1)/2` invocations, each unordered pair
exactly once — and folds all results into one global accumulator per metric
family, never attributing a result to an individual worker. -/
theorem C3_unordered_pairing_global (M : Matcher) (df : DataFrame) :
    ((pairsComb (workersOf df.rows)).length
        = (df.rows.map (fun r => r.worker_id)).toFinset.card
            * ((df.rows.map (fun r => r.worker_id)).toFinset.card - 1) / 2)
    ∧ (∀ w1 w2 : String,
        (pairsComb (workersOf df.rows)).countP (fun q => q = (w1, w2))
          + (pairsComb (workersOf df.rows)).countP (fun q => q = (w2, w1))
          = if w1 ∈ workersOf df.rows ∧ w2 ∈ workersOf df.rows ∧ w1 ≠ w2
            then 1 else 0)
    ∧ (gen_matcher_calls df.rows = (pairsComb (workersOf df.rows)).map (callOf df.rows))
    ∧ (runGeneratorLoop M df.rows
        = (((pairsComb (workersOf df.rows)).map
              (fun p => (applyMatcher M (callOf df.rows p)).arg_metrics)).sum,
           ((pairsComb (workersOf df.rows)).map
              (fun p => (applyMatcher M (callOf df.rows p)).role_metrics)).sum,
           ((pairsComb (workersOf df.rows)).map
              (fun p => (applyMatcher M (callOf df.rows p)).nom_ident_metrics)).sum)) := by
  have hnd := workersOf_nodup df.rows
  refine ⟨?_, ?_, rfl, runGeneratorLoop_eq_sums M df.rows⟩
  · have hcard : (workersOf df.rows).length
        = (df.rows.map (fun r => r.worker_id)).toFinset.card :=
      uniqueList_length _
    rw [← hcard]
    have h2 := two_mul_length_pairsComb (workersOf df.rows)
    omega
  · intro w1 w2
    by_cases hm : w1 ∈ workersOf df.rows ∧ w2 ∈ workersOf df.rows ∧ w1 ≠ w2
    · rw [if_pos hm]
      exact countP_pairsComb_pair _ hnd w1 w2 hm.1 hm.2.1 hm.2.2
    · rw [if_neg hm]
      have hz1 : (pairsComb (workersOf df.rows)).countP (fun q => q = (w1, w2)) = 0 := by
        apply countP_pair_eq_zero_of_not_mem
        intro hmem
        obtain ⟨h1, h2⟩ := mem_pairsComb _ w1 w2 hmem
        exact hm ⟨h1, h2, mem_pairsComb_ne _ hnd w1 w2 hmem⟩
      have hz2 : (pairsComb (workersOf df.rows)).countP (fun q => q = (w2, w1)) = 0 := by
        apply countP_pair_eq_zero_of_not_mem
        intro hmem
        obtain ⟨h1, h2⟩ := mem_pairsComb _ w2 w1 hmem
        exact hm ⟨h2, h1, (mem_pairsComb_ne _ hnd w2 w1 hmem).symm⟩
      omega

/-- C7: every matcher invocation made by the core — in both the ordered-pairing
path and the unordered-pairing path — passes `allow_overlaps` explicitly as
`False`; consequently the behavior of either path never depends on what the
matcher would do at `allow_overlaps=True`. -/
theorem C7_allow_overlaps_explicit_false :
    (∀ (df : List Row) (c : MatcherCall),
        c ∈ iaa_matcher_calls df ∨ c ∈ gen_matcher_calls df →
        c.allow_overlaps = false)
    ∧ (∀ M M' : Matcher,
        (∀ a b s, M a b s false = M' a b s false) →
        ∀ df : DataFrame,
          runPerWorkerLoop M df.rows = runPerWorkerLoop M' df.rows
          ∧ runGeneratorLoop M df.rows = runGeneratorLoop M' df.rows
          ∧ evaluate_per_worker_iaa M df = evaluate_per_worker_iaa M' df
          ∧ evaluate_generator_agreement M df = evaluate_generator_agreement M' df) := by
  constructor
  · intro df c hc
    rcases hc with hc | hc
    · obtain ⟨p, _, rfl⟩ := List.mem_map.mp hc
      rfl
    · obtain ⟨p, _, rfl⟩ := List.mem_map.mp hc
      rfl
  · intro M M' h df
    have happly : ∀ (d : List Row) (p : String × String),
        applyMatcher M (callOf d p) = applyMatcher M' (callOf d p) := by
      intro d p
      exact h (workerSlice d p.1) (workerSlice d p.2) (get_sent_map d)
    have hper : runPerWorkerLoop M df.rows = runPerWorkerLoop M' df.rows := by
      rw [runPerWorkerLoop, runPerWorkerLoop]
      congr 1
      funext st p
      show (ddAppend st.1 p.1 (applyMatcher M (callOf df.rows p)).arg_metrics,
            ddAppend st.2 p.1 (applyMatcher M (callOf df.rows p)).nom_ident_metrics)
          = (ddAppend st.1 p.1 (applyMatcher M' (callOf df.rows p)).arg_metrics,
             ddAppend st.2 p.1 (applyMatcher M' (callOf df.rows p)).nom_ident_metrics)
      rw [happly df.rows p]
    have hgen : runGeneratorLoop M df.rows = runGeneratorLoop M' df.rows := by
      rw [runGeneratorLoop, runGeneratorLoop]
      congr 1
      funext t p
      show (t.1 + (applyMatcher M (callOf df.rows p)).arg_metrics,
            t.2.1 + (applyMatcher M (callOf df.rows p)).role_metrics,
            t.2.2 + (applyMatcher M (callOf df.rows p)).nom_ident_metrics)
          = (t.1 + (applyMatcher M' (callOf df.rows p)).arg_metrics,
             t.2.1 + (applyMatcher M' (callOf df.rows p)).role_metrics,
             t.2.2 + (applyMatcher M' (callOf df.rows p)).nom_ident_metrics)
      rw [happly df.rows p]
    refine ⟨hper, hgen, ?_, ?_⟩
    · rw [evaluate_per_worker_iaa, evaluate_per_worker_iaa, hper]
    · rw [evaluate_generator_agreement, evaluate_generator_agreement, hgen]

/-- Fixture matcher that behaves arbitrarily differently at
`allow_overlaps=True` but agrees with `testMatcher` at `allow_overlaps=False`. -/
def testMatcherAlt : Matcher := fun d1 d2 s o =>
  if o then ⟨⟨99, 99, 99⟩, ⟨99, 99, 99⟩, ⟨99, 99, 99, 99⟩, []⟩
  else testMatcher d1 d2 s false

/-- C7 witness: a concrete recorded call carries `allow_overlaps = false`, and
two matchers agreeing at `False` yield identical evaluations of the fixture
table. -/
theorem C7_allow_overlaps_explicit_false_witness :
    (callOf testDf.rows ("alice", "bob")).allow_overlaps = false
    ∧ runPerWorkerLoop testMatcher testDf.rows
        = runPerWorkerLoop testMatcherAlt testDf.rows
    ∧ evaluate_generator_agreement testMatcher testDf
        = evaluate_generator_agreement testMatcherAlt testDf :=
  ⟨C7_allow_overlaps_explicit_false.1 testDf.rows (callOf testDf.rows ("alice", "bob"))
      (Or.inl (List.mem_map.mpr ⟨("alice", "bob"), by decide, rfl⟩)),
   (C7_allow_overlaps_explicit_false.2 testMatcher testMatcherAlt
      (fun a b s => rfl) testDf).1,
   (C7_allow_overlaps_explicit_false.2 testMatcher testMatcherAlt
      (fun a b s => rfl) testDf).2.2.2⟩

lemma dictLookup_cons (a : String × List String) (t : SentMap) (k' : String) :
    dictLookup (a :: t) k' = if a.1 = k' then some a.2 else dictLookup t k' := by
  rw [dictLookup, List.find?_cons]
  by_cases h : a.1 = k'
  · rw [decide_eq_true h]
    simp [h]
  · rw [decide_eq_false h]
    simp [h, dictLookup]

lemma dictLookup_map_overwrite_self (m : SentMap) (k : String) (v : List String)
    (h : m.any (fun p => p.1 = k) = true) :
    dictLookup (m.map (fun p => if p.1 = k then (k, v) else p)) k = some v := by
  induction m with
  | nil => cases h
  | cons a t ih =>
    by_cases hak : a.1 = k
    · simp only [List.map_cons, if_pos hak, dictLookup_cons]
      simp
    · have ht : t.any (fun p => p.1 = k) = true := by
        rcases List.any_eq_true.mp h with ⟨p, hp, hpk⟩
        rcases List.mem_cons.mp hp with rfl | hpt
        · exact absurd (of_decide_eq_true hpk) hak
        · exact List.any_eq_true.mpr ⟨p, hpt, hpk⟩
      simp only [List.map_cons, if_neg hak, dictLookup_cons]
      exact ih ht

lemma dictLookup_map_overwrite_other (m : SentMap) (k k' : String) (v : List String)
    (h : k' ≠ k) :
    dictLookup (m.map (fun p => if p.1 = k then (k, v) else p)) k'
      = dictLookup m k' := by
  induction m with
  | nil => rfl
  | cons a t ih =>
    by_cases hak : a.1 = k
    · have hkk' : ¬ (k, v).1 = k' := fun h1 => h h1.symm
      have hak' : ¬ a.1 = k' := fun h1 => h (hak.symm.trans h1).symm
      simp only [List.map_cons, if_pos hak, dictLookup_cons, if_neg hkk',
        if_neg hak']
      exact ih
    · simp only [List.map_cons, if_neg hak, dictLookup_cons]
      by_cases hak' : a.1 = k'
      · rw [if_pos hak', if_pos hak']
      · rw [if_neg hak', if_neg hak']
        exact ih

lemma dictLookup_append_new_self (m : SentMap) (k : String) (v : List String)
    (h : m.any (fun p => p.1 = k) = false) :
    dictLookup (m ++ [(k, v)]) k = some v := by
  induction m with
  | nil => simp [dictLookup_cons]
  | cons a t ih =>
    have hk : ¬ a.1 = k := by
      intro hak
      have : (a :: t).any (fun p => p.1 = k) = true :=
        List.any_eq_true.mpr ⟨a, List.mem_cons_self a t, decide_eq_true hak⟩
      rw [this] at h; cases h
    have ht : t.any (fun p => p.1 = k) = false := by
      cases hta : t.any (fun p => p.1 = k) with
      | false => rfl
      | true =>
        rcases List.any_eq_true.mp hta with ⟨p, hp, hpk⟩
        have : (a :: t).any (fun q => q.1 = k) = true :=
          List.any_eq_true.mpr ⟨p, List.mem_cons_of_mem a hp, hpk⟩
        rw [this] at h; cases h
    rw [List.cons_append, dictLookup_cons, if_neg hk]
    exact ih ht

lemma dictLookup_append_new_other (m : SentMap) (k k' : String) (v : List String)
    (h : k' ≠ k) :
    dictLookup (m ++ [(k, v)]) k' = dictLookup m k' := by
  induction m with
  | nil =>
    have : ¬ (k, v).1 = k' := fun h1 => h h1.symm
    simp [dictLookup_cons, this, dictLookup]
  | cons a t ih =>
    rw [List.cons_append, dictLookup_cons, dictLookup_cons]
    by_cases hak' : a.1 = k'
    · rw [if_pos hak', if_pos hak']
    · rw [if_neg hak', if_neg hak']
      exact ih

lemma dictLookup_dictInsert (m : SentMap) (k k' : String) (v : List String) :
    dictLookup (dictInsert m k v) k'
      = if k' = k then some v else dictLookup m k' := by
  rw [dictInsert]
  by_cases hany : m.any (fun p => p.1 = k) = true
  · rw [if_pos hany]
    by_cases hk : k' = k
    · rw [if_pos hk, hk]
      exact dictLookup_map_overwrite_self m k v hany
    · rw [if_neg hk]
      exact dictLookup_map_overwrite_other m k k' v hk
  · rw [if_neg hany]
    by_cases hk : k' = k
    · rw [if_pos hk, hk]
      exact dictLookup_append_new_self m k v (Bool.eq_false_iff.mpr hany)
    · rw [if_neg hk]
      exact dictLookup_append_new_other m k k' v hk

/-- C6 (amended): building the sentence index never raises — `get_sent_map` is
a plain dict construction; for every table and sentence id, the lookup yields
the tokenization of the LAST row carrying that id, so when a `sentence_id` maps
to several distinct tokenizations the later row silently overwrites the
earlier one. -/
theorem C6_amended_sent_map_keeps_last (df : List Row) (qid : String) :
    dictLookup (get_sent_map df) qid
      = ((df.filter (fun r => r.qasrl_id = qid)).getLast?).map
          (fun r => pySplit r.sentence) := by
  induction df using List.reverseRecOn with
  | nil => rfl
  | append_singleton l r ih =>
    have hfold : get_sent_map (l ++ [r])
        = dictInsert (get_sent_map l) r.qasrl_id (pySplit r.sentence) := by
      rw [get_sent_map, List.foldl_append]
      rfl
    rw [hfold, dictLookup_dictInsert]
    by_cases hq : qid = r.qasrl_id
    · rw [if_pos hq]
      have : (l ++ [r]).filter (fun s => s.qasrl_id = qid)
          = l.filter (fun s => s.qasrl_id = qid) ++ [r] := by
        rw [List.filter_append]
        congr 1
        simp [List.filter_cons, hq.symm]
      rw [this, List.getLast?_concat]
      rfl
    · rw [if_neg hq]
      have hq' : ¬ r.qasrl_id = qid := fun h1 => hq h1.symm
      have : (l ++ [r]).filter (fun s => s.qasrl_id = qid)
          = l.filter (fun s => s.qasrl_id = qid) := by
        rw [List.filter_append]
        have hnil : [r].filter (fun s => s.qasrl_id = qid) = [] := by
          simp [List.filter_cons, hq']
        rw [hnil, List.append_nil]
      rw [this, ih]

/-- Fixture: two rows with the same sentence id but different tokenizations. -/
def sRowA : Row := ⟨"s1", 1, "alice", some "run", none, false, "a b"⟩

/-- Fixture: the conflicting second row. -/
def sRowB : Row := ⟨"s1", 1, "bob", some "run", none, false, "a c"⟩

/-- C6 counterexample: on a table where sentence id `s1` has two distinct
tokenizations, `get_sent_map` raises nothing and returns a map that silently
keeps one of them (the last), contradicting the claim that every such table
raises a `DataIntegrityError` and that no conflicting tokenization is silently
kept. -/
theorem C6_counterexample :
    pySplit sRowA.sentence ≠ pySplit sRowB.sentence
    ∧ get_sent_map [sRowA, sRowB] = [("s1", ["a", "c"])] := by
  constructor
  · decide
  · decide

lemma map_snd_set_n_roles (df : List Row) :
    (set_n_roles df).map Prod.snd
      = df.map (fun r => (df.filter (fun s =>
          s.qasrl_id = r.qasrl_id ∧ s.verb_idx = r.verb_idx ∧
            s.worker_id = r.worker_id)).countP (fun s => s.verb.isSome)) := by
  rw [set_n_roles, List.map_map]
  rfl

lemma map_snd_set_n_workers (df : List Row) :
    (set_n_workers df).map Prod.snd
      = df.map (fun r => ((df.filter (fun s =>
          s.qasrl_id = r.qasrl_id ∧ s.verb_idx = r.verb_idx)).map
            (fun s => s.worker_id)).dedup.length) := by
  rw [set_n_workers, List.map_map]
  rfl

/-- C4 (corrected): `set_n_roles` assigns to each
`(sentence_id, predicate_index, worker_id)` group the count of the group's
rows with a non-null `verb` field (not `question`): the assigned values are
invariant under arbitrary changes of the `question` column, and when every row
has a non-null `verb` (as in the annotation data) the value is simply the full
group size — so a row with `question = null` still counts toward `n_roles`.
Rows with `question = null` do count toward the `n_workers` cardinality, whose
values are likewise question-invariant. -/
theorem C4_amended_n_roles_counts_verb :
    (∀ (df : List Row) (f : Row → Row),
        (∀ s, (f s).qasrl_id = s.qasrl_id) → (∀ s, (f s).verb_idx = s.verb_idx) →
        (∀ s, (f s).worker_id = s.worker_id) → (∀ s, (f s).verb = s.verb) →
        ((set_n_roles (df.map f)).map Prod.snd = (set_n_roles df).map Prod.snd
          ∧ (set_n_workers (df.map f)).map Prod.snd
              = (set_n_workers df).map Prod.snd))
    ∧ (∀ df : List Row, (∀ s ∈ df, s.verb.isSome = true) →
        (set_n_roles df).map Prod.snd
          = df.map (fun r => (df.filter (fun s =>
              s.qasrl_id = r.qasrl_id ∧ s.verb_idx = r.verb_idx ∧
                s.worker_id = r.worker_id)).length)) := by
  constructor
  · intro df f h1 h2 h3 h4
    constructor
    · rw [map_snd_set_n_roles, map_snd_set_n_roles, List.map_map]
      apply List.map_congr_left
      intro r _
      show ((df.map f).filter (fun s =>
          s.qasrl_id = (f r).qasrl_id ∧ s.verb_idx = (f r).verb_idx ∧
            s.worker_id = (f r).worker_id)).countP (fun s => s.verb.isSome)
        = (df.filter (fun s =>
            s.qasrl_id = r.qasrl_id ∧ s.verb_idx = r.verb_idx ∧
              s.worker_id = r.worker_id)).countP (fun s => s.verb.isSome)
      rw [List.countP_filter, List.countP_filter, List.countP_map]
      apply List.countP_congr
      intro s _
      simp only [Function.comp_apply, h1, h2, h3, h4, Bool.and_eq_true,
        decide_eq_true_eq]
    · rw [map_snd_set_n_workers, map_snd_set_n_workers, List.map_map]
      apply List.map_congr_left
      intro r _
      show (((df.map f).filter (fun s =>
          s.qasrl_id = (f r).qasrl_id ∧ s.verb_idx = (f r).verb_idx)).map
            (fun s => s.worker_id)).dedup.length
        = ((df.filter (fun s =>
            s.qasrl_id = r.qasrl_id ∧ s.verb_idx = r.verb_idx)).map
              (fun s => s.worker_id)).dedup.length
      have hfil : (df.map f).filter (fun s =>
          s.qasrl_id = (f r).qasrl_id ∧ s.verb_idx = (f r).verb_idx)
          = (df.filter (fun s =>
              s.qasrl_id = r.qasrl_id ∧ s.verb_idx = r.verb_idx)).map f := by
        rw [List.filter_map]
        congr 1
        apply List.filter_congr
        intro s _
        simp only [Function.comp_apply, h1, h2]
      rw [hfil, List.map_map]
      have hmapw : (df.filter (fun s =>
          s.qasrl_id = r.qasrl_id ∧ s.verb_idx = r.verb_idx)).map
            ((fun s => s.worker_id) ∘ f)
          = (df.filter (fun s =>
              s.qasrl_id = r.qasrl_id ∧ s.verb_idx = r.verb_idx)).map
                (fun s => s.worker_id) := by
        apply List.map_congr_left
        intro s _
        exact h3 s
      rw [hmapw]
  · intro df hverb
    rw [map_snd_set_n_roles]
    apply List.map_congr_left
    intro r _
    apply List.countP_eq_length.mpr
    intro s hs
    exact hverb s (List.mem_of_mem_filter hs)

/-- C4 counterexample: a single-row table whose row has a non-null `verb` but
a null `question`; `set_n_roles` assigns the value `1` whereas the claim (count
of rows with non-null `question`) demands `0`. -/
theorem C4_counterexample :
    (set_n_roles [sRowA]).map Prod.snd = [1]
    ∧ n_roles_claimed [sRowA] sRowA = 0
    ∧ (set_n_roles [sRowA]).map Prod.snd ≠ [n_roles_claimed [sRowA] sRowA] := by
  refine ⟨by decide, by decide, by decide⟩

/-- C4 witness: the invariance part applied to the identity transformation and
the verb-populated part applied to a concrete single-row table. -/
theorem C4_amended_n_roles_counts_verb_witness :
    ((set_n_roles ([sRowA].map id)).map Prod.snd = (set_n_roles [sRowA]).map Prod.snd)
    ∧ (set_n_roles [sRowA]).map Prod.snd
        = [sRowA].map (fun r => ([sRowA].filter (fun s =>
            s.qasrl_id = r.qasrl_id ∧ s.verb_idx = r.verb_idx ∧
              s.worker_id = r.worker_id)).length) :=
  ⟨(C4_amended_n_roles_counts_verb.1 [sRowA] id (fun _ => rfl) (fun _ => rfl)
      (fun _ => rfl) (fun _ => rfl)).1,
   C4_amended_n_roles_counts_verb.2 [sRowA] (by decide)⟩

/-- C8 (corrected): the evaluation run leaves every row of the table unchanged
and adds at most the derived `key` column — `get_worker_statistics` (and hence
`evaluate_per_worker_iaa`, which calls it) assigns `df['key']` on the caller's
table when that column is absent; the metric values themselves are combined
only by addition of fresh per-comparison results. -/
theorem C8_amended_only_key_column_added (M : Matcher) (df : DataFrame) :
    ((get_worker_statistics df).1.rows = df.rows)
    ∧ ((get_worker_statistics df).1.key_col
        = if df.key_col = none then some (df.rows.map key_of) else df.key_col)
    ∧ ((evaluate_per_worker_iaa M df).1.rows = df.rows)
    ∧ ((evaluate_per_worker_iaa M df).1.key_col
        = if df.key_col = none then some (df.rows.map key_of) else df.key_col)
    ∧ (runGeneratorLoop M df.rows
        = (((pairsComb (workersOf df.rows)).map
              (fun p => (applyMatcher M (callOf df.rows p)).arg_metrics)).sum,
           ((pairsComb (workersOf df.rows)).map
              (fun p => (applyMatcher M (callOf df.rows p)).role_metrics)).sum,
           ((pairsComb (workersOf df.rows)).map
              (fun p => (applyMatcher M (callOf df.rows p)).nom_ident_metrics)).sum)) := by
  have h1 : (get_worker_statistics df).1
      = if df.key_col = none
        then { df with key_col := some (df.rows.map key_of) } else df := rfl
  have hrows : (get_worker_statistics df).1.rows = df.rows := by
    rw [h1]
    by_cases h : df.key_col = none
    · rw [if_pos h]
    · rw [if_neg h]
  have hkey : (get_worker_statistics df).1.key_col
      = if df.key_col = none then some (df.rows.map key_of) else df.key_col := by
    rw [h1]
    by_cases h : df.key_col = none
    · rw [if_pos h, if_pos h]
    · rw [if_neg h, if_neg h]
  have heval : (evaluate_per_worker_iaa M df).1 = (get_worker_statistics df).1 := rfl
  exact ⟨hrows, hkey, heval ▸ hrows, heval ▸ hkey,
    runGeneratorLoop_eq_sums M df.rows⟩

/-- C8 counterexample: on a table without a `key` column the table observed
after `get_worker_statistics` differs from the table passed in — a `key`
column has been added in place. -/
theorem C8_counterexample :
    (get_worker_statistics ⟨[sRowA], none⟩).1 ≠ ⟨[sRowA], none⟩ := by
  decide

lemma uniqueList_const (l : List String) (w0 : String)
    (hne : l ≠ []) (hall : ∀ x ∈ l, x = w0) : uniqueList l = [w0] := by
  have hgo : ∀ (t : List String), (∀ x ∈ t, x = w0) →
      t.foldl (fun acc x => if x ∈ acc then acc else acc ++ [x]) [w0] = [w0] := by
    intro t
    induction t with
    | nil => intro _; rfl
    | cons y ys ih =>
      intro hall'
      have hy : y = w0 := hall' y (List.mem_cons_self y ys)
      simp only [List.foldl_cons, hy, List.mem_singleton, if_pos rfl]
      exact ih (fun x hx => hall' x (List.mem_cons_of_mem y hx))
  cases l with
  | nil => exact absurd rfl hne
  | cons x t =>
    have hx : x = w0 := hall x (List.mem_cons_self x t)
    rw [uniqueList, List.foldl_cons]
    have : (if x ∈ ([] : List String) then ([] : List String) else [] ++ [x]) = [w0] := by
      simp [hx]
    rw [this]
    exact hgo t (fun y hy => hall y (List.mem_cons_of_mem x hy))

lemma dedup_const (l : List String) (w0 : String)
    (hne : l ≠ []) (hall : ∀ x ∈ l, x = w0) : l.dedup = [w0] := by
  induction l with
  | nil => exact absurd rfl hne
  | cons a t ih =>
    have ha : a = w0 := hall a (List.mem_cons_self a t)
    cases t with
    | nil => simp [ha]
    | cons b t' =>
      have hb : b = w0 := hall b (List.mem_cons_of_mem a (List.mem_cons_self b t'))
      have hmem : a ∈ b :: t' := by
        rw [ha, hb]
        exact List.mem_cons_self w0 t'
      rw [List.dedup_cons_of_mem hmem]
      exact ih (List.cons_ne_nil b t')
        (fun x hx => hall x (List.mem_cons_of_mem a hx))

lemma sortedWorkers_single (df : List Row) (w0 : String)
    (hne : df ≠ []) (hall : ∀ r ∈ df, r.worker_id = w0) :
    sortedWorkers df = [w0] := by
  rw [sortedWorkers]
  have hmapne : df.map (fun r => r.worker_id) ≠ [] := by
    intro h
    exact hne (List.map_eq_nil_iff.mp h)
  have hmapall : ∀ x ∈ df.map (fun r => r.worker_id), x = w0 := by
    intro x hx
    obtain ⟨r, hr, rfl⟩ := List.mem_map.mp hx
    exact hall r hr
  rw [dedup_const _ w0 hmapne hmapall]
  rfl

/-- C9: `evaluate_per_worker_iaa` requires at least two distinct workers — on
a non-empty table whose rows all carry one single worker id, the ordered-pair
loop runs zero times, the per-worker performance dictionaries stay empty, and
the final statistics loop raises a `KeyError` for that worker instead of
returning a statistics record. -/
theorem C9_single_worker_key_error (M : Matcher) (df : DataFrame) (w0 : String)
    (hne : df.rows ≠ []) (hall : ∀ r ∈ df.rows, r.worker_id = w0) :
    workersOf df.rows = [w0]
    ∧ pairsPerm (workersOf df.rows) = []
    ∧ (∀ w, (runPerWorkerLoop M df.rows).1 w = none)
    ∧ (∀ w, (runPerWorkerLoop M df.rows).2 w = none)
    ∧ (evaluate_per_worker_iaa M df).2 = Except.error (PyExc.keyError w0) := by
  have hmapne : df.rows.map (fun r => r.worker_id) ≠ [] :=
    fun h => hne (List.map_eq_nil_iff.mp h)
  have hmapall : ∀ x ∈ df.rows.map (fun r => r.worker_id), x = w0 := by
    intro x hx
    obtain ⟨r, hr, rfl⟩ := List.mem_map.mp hx
    exact hall r hr
  have hworkers : workersOf df.rows = [w0] :=
    uniqueList_const _ w0 hmapne hmapall
  have hpairs : pairsPerm (workersOf df.rows) = [] := by
    rw [hworkers]
    simp [pairsPerm]
  have hfst : ∀ w, (runPerWorkerLoop M df.rows).1 w = none := by
    intro w
    rw [runPerWorkerLoop_fst, hpairs]
    rfl
  have hsnd : ∀ w, (runPerWorkerLoop M df.rows).2 w = none := by
    intro w
    rw [runPerWorkerLoop_snd, hpairs]
    rfl
  refine ⟨hworkers, hpairs, hfst, hsnd, ?_⟩
  have hrows : (get_worker_statistics df).1.rows = df.rows :=
    (C8_amended_only_key_column_added M df).1
  have hsw : sortedWorkers (if df.key_col = none
      then { df with key_col := some (df.rows.map key_of) } else df).rows = [w0] := by
    have : (if df.key_col = none
        then { df with key_col := some (df.rows.map key_of) } else df).rows
        = df.rows := by
      by_cases h : df.key_col = none
      · rw [if_pos h]
      · rw [if_neg h]
    rw [this]
    exact sortedWorkers_single df.rows w0 hne hall
  show (statsLoop (fun w => ((runPerWorkerLoop M df.rows).1 w).map List.sum)
      (fun w => ((runPerWorkerLoop M df.rows).2 w).map List.sum)
      (get_worker_statistics df).2)
    = Except.error (PyExc.keyError w0)
  have hgs2 : ∃ st : BaseStats, (get_worker_statistics df).2 = [(w0, st)] := by
    rw [get_worker_statistics]
    simp only [hsw, List.map_cons, List.map_nil]
    exact ⟨_, rfl⟩
  obtain ⟨st, hst⟩ := hgs2
  rw [hst, statsLoop, hfst w0]
  rfl

/-- Fixture matcher returning only empty metrics. -/
def zeroMatcher : Matcher := fun _ _ _ _ =>
  ⟨Metrics.empty, Metrics.empty, BinaryClassificationMetrics.empty, []⟩

/-- C9 witness: the theorem applied to a one-row, one-worker table. -/
theorem C9_single_worker_key_error_witness :
    (evaluate_per_worker_iaa zeroMatcher ⟨[sRowA], none⟩).2
      = Except.error (PyExc.keyError "alice") :=
  (C9_single_worker_key_error zeroMatcher ⟨[sRowA], none⟩ "alice" (by decide)
    (by decide)).2.2.2.2

lemma statsLoop_acc_error (argPerf : String → Option Metrics)
    (nomPerf : String → Option BinaryClassificationMetrics)
    (w : String) (st : BaseStats) (rest : List (String × BaseStats))
    (mA : Metrics) (mN : BinaryClassificationMetrics)
    (hA : argPerf w = some mA) (hN : nomPerf w = some mN)
    (hacc : mN.accuracy = Except.error PyExc.divisionUndefined) :
    statsLoop argPerf nomPerf ((w, st) :: rest)
      = Except.error PyExc.divisionUndefined := by
  rw [statsLoop, hA, hN]
  show (mN.accuracy >>= fun acc =>
      (statsLoop argPerf nomPerf rest) >>= fun rest' =>
        Except.ok ((w, ⟨st.num_predicates, st.num_qas, mA, acc⟩) :: rest'))
    = Except.error PyExc.divisionUndefined
  rw [hacc]
  rfl

set_option maxHeartbeats 1000000 in
/-- C5: the division-by-zero policy is asymmetric — `accuracy()` on an
accumulator with zero instances (in particular `empty()`) raises the
`DivisionUndefined` condition rather than returning `0`, while
`Metrics.empty().f1()` (and precision/recall on a zero denominator) is `0.0`
without error; consequently the `accuracy()` calls of both evaluation paths
fail rather than silently report `0` when no instances were compared. -/
theorem C5_division_by_zero_asymmetry :
    (BinaryClassificationMetrics.empty.accuracy
        = Except.error PyExc.divisionUndefined)
    ∧ (Metrics.empty.f1 = 0)
    ∧ (∀ m : Metrics, m.tp + m.fp = 0 → m.prec = 0)
    ∧ (∀ m : Metrics, m.tp + m.fn = 0 → m.recall = 0)
    ∧ (∀ m : Metrics, m.prec + m.recall = 0 → m.f1 = 0)
    ∧ (∀ (M : Matcher) (df : DataFrame),
        (runGeneratorLoop M df.rows).2.2.instances = 0 →
        evaluate_generator_agreement M df = Except.error PyExc.divisionUndefined)
    ∧ (∀ (M : Matcher) (df : DataFrame),
        2 ≤ (workersOf df.rows).length →
        (∀ a b s o, (M a b s o).nom_ident_metrics.instances = 0) →
        (evaluate_per_worker_iaa M df).2 = Except.error PyExc.divisionUndefined) := by
  refine ⟨rfl, ?_, ?_, ?_, ?_, ?_, ?_⟩
  · show (if Metrics.empty.prec + Metrics.empty.recall = 0 then (0 : ℚ) else _) = 0
    rw [if_pos]
    show Metrics.empty.prec + Metrics.empty.recall = 0
    rw [Metrics.prec, Metrics.recall]
    norm_num [Metrics.empty]
  · intro m h
    rw [Metrics.prec, if_pos h]
  · intro m h
    rw [Metrics.recall, if_pos h]
  · intro m h
    rw [Metrics.f1, if_pos h]
  · intro M df h
    have hacc : (runGeneratorLoop M df.rows).2.2.accuracy
        = Except.error PyExc.divisionUndefined := by
      rw [BinaryClassificationMetrics.accuracy, if_pos h]
    rw [evaluate_generator_agreement, hacc]
  · intro M df hlen hM
    have hperm := sortStrings_perm (df.rows.map (fun r => r.worker_id)).dedup
    have hrows' : (if df.key_col = none
        then { df with key_col := some (df.rows.map key_of) } else df).rows
        = df.rows := by
      by_cases h : df.key_col = none
      · rw [if_pos h]
      · rw [if_neg h]
    have hwlen : 0 < (workersOf df.rows).length := by omega
    have hwne : workersOf df.rows ≠ [] := List.ne_nil_of_length_pos hwlen
    have hddne : (df.rows.map (fun r => r.worker_id)).dedup ≠ [] := by
      intro hd
      apply hwne
      cases hw : workersOf df.rows with
      | nil => rfl
      | cons y ys =>
        have hy : y ∈ workersOf df.rows := hw ▸ List.mem_cons_self y ys
        have hy2 : y ∈ df.rows.map (fun r => r.worker_id) :=
          (workersOf_mem df.rows y).mp hy
        have hy3 : y ∈ (df.rows.map (fun r => r.worker_id)).dedup :=
          List.mem_dedup.mpr hy2
        rw [hd] at hy3
        cases hy3
    have hsne : sortedWorkers df.rows ≠ [] := by
      rw [sortedWorkers]
      intro h
      exact hddne (List.Perm.eq_nil (h ▸ hperm.symm))
    cases hsw : sortedWorkers df.rows with
    | nil => exact absurd hsw hsne
    | cons w rest =>
      have hwmem : w ∈ workersOf df.rows := by
        have h1 : w ∈ sortedWorkers df.rows := hsw ▸ List.mem_cons_self w rest
        rw [sortedWorkers] at h1
        have h2 : w ∈ (df.rows.map (fun r => r.worker_id)).dedup :=
          hperm.mem_iff.mp h1
        exact (workersOf_mem df.rows w).mpr (List.mem_dedup.mp h2)
      obtain ⟨w', hw'mem, hw'ne⟩ : ∃ w' ∈ workersOf df.rows, w' ≠ w := by
        have hnd := workersOf_nodup df.rows
        rcases hws : workersOf df.rows with _ | ⟨a, _ | ⟨b, t⟩⟩
        · rw [hws] at hwlen; cases hwlen
        · rw [hws] at hlen; simp at hlen
        · rw [hws] at hnd hwmem
          have hab : a ≠ b := by
            intro hab
            exact (List.nodup_cons.mp hnd).1 (hab ▸ List.mem_cons_self b t)
          rcases List.mem_cons.mp hwmem with rfl | hw2
          · exact ⟨b, List.mem_cons_of_mem _ (List.mem_cons_self b t),
              fun h => hab h.symm⟩
          · exact ⟨a, List.mem_cons_self a _,
              fun h => (List.nodup_cons.mp hnd).1 (h ▸ hw2)⟩
      have hany : (pairsPerm (workersOf df.rows)).any (fun p => p.1 = w) = true := by
        apply List.any_eq_true.mpr
        refine ⟨(w, w'), (mem_pairsPerm _ w w').mpr ⟨hwmem, hw'mem, hw'ne⟩, ?_⟩
        simp
      have hfst : (runPerWorkerLoop M df.rows).1 w
          = some (((pairsPerm (workersOf df.rows)).filter (fun p => p.1 = w)).map
              (fun p => (applyMatcher M (callOf df.rows p)).arg_metrics)) := by
        rw [runPerWorkerLoop_fst, if_pos hany]
      have hsnd : (runPerWorkerLoop M df.rows).2 w
          = some (((pairsPerm (workersOf df.rows)).filter (fun p => p.1 = w)).map
              (fun p => (applyMatcher M (callOf df.rows p)).nom_ident_metrics)) := by
        rw [runPerWorkerLoop_snd, if_pos hany]
      have hinst : ((((pairsPerm (workersOf df.rows)).filter (fun p => p.1 = w)).map
          (fun p => (applyMatcher M (callOf df.rows p)).nom_ident_metrics)).sum).instances
          = 0 := by
        rw [instances_sum]
        apply List.sum_eq_zero
        intro x hx
        rw [List.map_map] at hx
        obtain ⟨p, _, rfl⟩ := List.mem_map.mp hx
        exact hM _ _ _ _
      have hacc : ((((pairsPerm (workersOf df.rows)).filter (fun p => p.1 = w)).map
          (fun p => (applyMatcher M (callOf df.rows p)).nom_ident_metrics)).sum).accuracy
          = Except.error PyExc.divisionUndefined := by
        rw [BinaryClassificationMetrics.accuracy, if_pos hinst]
      show (statsLoop (fun v => ((runPerWorkerLoop M df.rows).1 v).map List.sum)
          (fun v => ((runPerWorkerLoop M df.rows).2 v).map List.sum)
          (get_worker_statistics df).2)
        = Except.error PyExc.divisionUndefined
      have hgs2 : ∃ (st : BaseStats) (more : List (String × BaseStats)),
          (get_worker_statistics df).2 = (w, st) :: more := by
        rw [get_worker_statistics]
        simp only [hrows', hsw, List.map_cons]
        exact ⟨_, _, rfl⟩
      obtain ⟨st, more, hst⟩ := hgs2
      rw [hst]
      refine statsLoop_acc_error _ _ w st more
        ((((pairsPerm (workersOf df.rows)).filter (fun p => p.1 = w)).map
            (fun p => (applyMatcher M (callOf df.rows p)).arg_metrics)).sum)
        ((((pairsPerm (workersOf df.rows)).filter (fun p => p.1 = w)).map
            (fun p => (applyMatcher M (callOf df.rows p)).nom_ident_metrics)).sum)
        ?_ ?_ hacc
      · rw [hfst]
        rfl
      · rw [hsnd]
        rfl

/-- C5 witness: on a three-worker fixture with a matcher that reports no
instances, both evaluation paths raise the division condition, while the empty
argument metrics yield `f1 = 0`. -/
theorem C5_division_by_zero_asymmetry_witness :
    (BinaryClassificationMetrics.empty.accuracy
        = Except.error PyExc.divisionUndefined)
    ∧ (Metrics.empty.f1 = 0)
    ∧ (evaluate_generator_agreement zeroMatcher testDf
        = Except.error PyExc.divisionUndefined)
    ∧ ((evaluate_per_worker_iaa zeroMatcher testDf).2
        = Except.error PyExc.divisionUndefined) :=
  ⟨C5_division_by_zero_asymmetry.1,
   C5_division_by_zero_asymmetry.2.1,
   C5_division_by_zero_asymmetry.2.2.2.2.2.1 zeroMatcher testDf (by decide),
   C5_division_by_zero_asymmetry.2.2.2.2.2.2 zeroMatcher testDf (by decide)
     (fun _ _ _ _ => rfl)⟩

/-! Facts about the decimal representation underlying `toString`, needed for
the injectivity of the `key` encoding of line 45. -/

lemma toDigitsCore_append (b : Nat) :
    ∀ (f n : Nat) (ds : List Char),
      Nat.toDigitsCore b f n ds = Nat.toDigitsCore b f n [] ++ ds := by
  intro f
  induction f with
  | zero => intro n ds; rfl
  | succ f ih =>
    intro n ds
    rw [Nat.toDigitsCore, Nat.toDigitsCore]
    by_cases h : n / b = 0
    · simp only [if_pos h]
      rfl
    · simp only [if_neg h]
      rw [ih (n / b) [Nat.digitChar (n % b)],
        ih (n / b) (Nat.digitChar (n % b) :: ds)]
      rw [List.append_assoc]
      rfl

lemma toDigitsCore_fuel :
    ∀ (n f₁ f₂ : Nat), n < f₁ → n < f₂ →
      Nat.toDigitsCore 10 f₁ n [] = Nat.toDigitsCore 10 f₂ n [] := by
  intro n
  induction n using Nat.strong_induction_on with
  | _ n ih =>
    intro f₁ f₂ h₁ h₂
    cases f₁ with
    | zero => cases h₁
    | succ g₁ =>
      cases f₂ with
      | zero => cases h₂
      | succ g₂ =>
        rw [Nat.toDigitsCore, Nat.toDigitsCore]
        by_cases h : n / 10 = 0
        · simp only [if_pos h]
        · simp only [if_neg h]
          have hlt : n / 10 < n := by
            apply Nat.div_lt_self
            · rcases Nat.eq_zero_or_pos n with h0 | h0
              · rw [h0] at h; exact absurd rfl h
              · exact h0
            · omega
          rw [toDigitsCore_append 10 g₁, toDigitsCore_append 10 g₂]
          rw [ih (n / 10) hlt g₁ g₂ (by omega) (by omega)]

lemma toDigits_unfold (n : Nat) :
    Nat.toDigits 10 n
      = if n < 10 then [Nat.digitChar n]
        else Nat.toDigits 10 (n / 10) ++ [Nat.digitChar (n % 10)] := by
  rw [Nat.toDigits, Nat.toDigitsCore]
  by_cases h : n < 10
  · have hdiv : n / 10 = 0 := Nat.div_eq_of_lt h
    have hmod : n % 10 = n := Nat.mod_eq_of_lt h
    simp only [if_pos hdiv, if_pos h, hmod]
  · have hdiv : ¬ n / 10 = 0 := by
      intro h0
      exact h (by omega)
    simp only [if_neg hdiv, if_neg h]
    rw [toDigitsCore_append 10 n (n / 10) [Nat.digitChar (n % 10)]]
    congr 1
    have hlt : n / 10 < n := by
      apply Nat.div_lt_self
      · omega
      · omega
    rw [Nat.toDigits]
    exact toDigitsCore_fuel (n / 10) n (n / 10 + 1) hlt (Nat.lt_succ_self _)

lemma digitChar_isDigit (m : Nat) (h : m < 10) :
    (Nat.digitChar m).isDigit = true := by
  have hfin : ∀ f : Fin 10, (Nat.digitChar f.val).isDigit = true := by decide
  exact hfin ⟨m, h⟩

lemma digitChar_inj (a b : Nat) (ha : a < 10) (hb : b < 10)
    (h : Nat.digitChar a = Nat.digitChar b) : a = b := by
  have hfin : ∀ f g : Fin 10,
      Nat.digitChar f.val = Nat.digitChar g.val → f = g := by decide
  have := hfin ⟨a, ha⟩ ⟨b, hb⟩ h
  exact congrArg Fin.val this

lemma toDigits_all_isDigit :
    ∀ (n : Nat) (c : Char), c ∈ Nat.toDigits 10 n → c.isDigit = true := by
  intro n
  induction n using Nat.strong_induction_on with
  | _ n ih =>
    intro c hc
    rw [toDigits_unfold] at hc
    by_cases h : n < 10
    · rw [if_pos h] at hc
      rcases List.mem_singleton.mp hc with rfl
      exact digitChar_isDigit n h
    · rw [if_neg h] at hc
      rcases List.mem_append.mp hc with h1 | h1
      · have hlt : n / 10 < n := Nat.div_lt_self (by omega) (by omega)
        exact ih (n / 10) hlt c h1
      · rcases List.mem_singleton.mp h1 with rfl
        exact digitChar_isDigit _ (Nat.mod_lt n (by omega))
    
lemma toDigits_ne_nil (n : Nat) : Nat.toDigits 10 n ≠ [] := by
  rw [toDigits_unfold]
  by_cases h : n < 10
  · rw [if_pos h]
    exact List.cons_ne_nil _ _
  · rw [if_neg h]
    intro hnil
    rcases List.append_eq_nil.mp hnil with ⟨_, h2⟩
    exact List.cons_ne_nil _ _ h2

lemma toDigits_inj :
    ∀ (m n : Nat), Nat.toDigits 10 m = Nat.toDigits 10 n → m = n := by
  intro m
  induction m using Nat.strong_induction_on with
  | _ m ih =>
    intro n h
    rw [toDigits_unfold m, toDigits_unfold n] at h
    by_cases hm : m < 10
    · by_cases hn : n < 10
      · rw [if_pos hm, if_pos hn] at h
        exact digitChar_inj m n hm hn (List.singleton_injective h)
      · rw [if_pos hm, if_neg hn] at h
        have hlen := congrArg List.length h
        rw [List.length_append, List.length_singleton, List.length_singleton] at hlen
        have := List.length_pos.mpr (toDigits_ne_nil (n / 10))
        omega
    · by_cases hn : n < 10
      · rw [if_neg hm, if_pos hn] at h
        have hlen := congrArg List.length h
        rw [List.length_append, List.length_singleton, List.length_singleton] at hlen
        have := List.length_pos.mpr (toDigits_ne_nil (m / 10))
        omega
      · rw [if_neg hm, if_neg hn] at h
        obtain ⟨h1, h2⟩ := List.append_inj' h (by rfl)
        have hdiv : m / 10 = n / 10 := by
          have hlt : m / 10 < m := Nat.div_lt_self (by omega) (by omega)
          exact ih (m / 10) hlt (n / 10) h1
        have hmod : m % 10 = n % 10 :=
          digitChar_inj _ _ (Nat.mod_lt m (by omega)) (Nat.mod_lt n (by omega))
            (List.singleton_injective h2)
        omega

lemma natRepr_data (n : Nat) : (Nat.repr n).data = Nat.toDigits 10 n := rfl

lemma natRepr_inj (m n : Nat) (h : Nat.repr m = Nat.repr n) : m = n :=
  toDigits_inj m n (by rw [← natRepr_data, ← natRepr_data, h])

lemma intToString_data_ofNat (m : Nat) :
    (toString (Int.ofNat m)).data = Nat.toDigits 10 m := rfl

lemma intToString_data_negSucc (m : Nat) :
    (toString (Int.negSucc m)).data = '-' :: Nat.toDigits 10 (m + 1) := rfl

lemma no_underscore_toString_int (i : Int) : '_' ∉ (toString i).data := by
  cases i with
  | ofNat m =>
    rw [intToString_data_ofNat]
    intro hmem
    have := toDigits_all_isDigit m '_' hmem
    simp at this
  | negSucc m =>
    rw [intToString_data_negSucc]
    intro hmem
    rcases List.mem_cons.mp hmem with h1 | h1
    · simp at h1
    · have := toDigits_all_isDigit (m + 1) '_' h1
      simp at this

lemma intToString_inj (i j : Int) (h : toString i = toString j) : i = j := by
  have hdata := congrArg String.data h
  cases i with
  | ofNat m =>
    cases j with
    | ofNat n =>
      rw [intToString_data_ofNat, intToString_data_ofNat] at hdata
      exact congrArg Int.ofNat (toDigits_inj m n hdata)
    | negSucc n =>
      exfalso
      rw [intToString_data_ofNat, intToString_data_negSucc] at hdata
      have hm : '-' ∈ Nat.toDigits 10 m := by
        rw [hdata]
        exact List.mem_cons_self _ _
      have := toDigits_all_isDigit m '-' hm
      simp at this
  | negSucc m =>
    cases j with
    | ofNat n =>
      exfalso
      rw [intToString_data_negSucc, intToString_data_ofNat] at hdata
      have hn : '-' ∈ Nat.toDigits 10 n := by
        rw [← hdata]
        exact List.mem_cons_self _ _
      have := toDigits_all_isDigit n '-' hn
      simp at this
    | negSucc n =>
      rw [intToString_data_negSucc, intToString_data_negSucc] at hdata
      have h2 : Nat.toDigits 10 (m + 1) = Nat.toDigits 10 (n + 1) :=
        List.tail_eq_of_cons_eq hdata
      have h3 := toDigits_inj (m + 1) (n + 1) h2
      have h4 : m = n := by omega
      rw [h4]

lemma underscore_split_left :
    ∀ (x u y v : List Char), '_' ∉ x → '_' ∉ u →
      x ++ '_' :: y = u ++ '_' :: v → x = u ∧ y = v := by
  intro x
  induction x with
  | nil =>
    intro u y v _ hu h
    cases u with
    | nil =>
      simp only [List.nil_append] at h
      exact ⟨rfl, List.tail_eq_of_cons_eq h⟩
    | cons c u' =>
      exfalso
      simp only [List.nil_append, List.cons_append] at h
      have hc : c = '_' := (List.head_eq_of_cons_eq h).symm
      exact hu (hc ▸ List.mem_cons_self c u')
  | cons a x' ih =>
    intro u y v hx hu h
    cases u with
    | nil =>
      exfalso
      simp only [List.cons_append, List.nil_append] at h
      have ha : a = '_' := List.head_eq_of_cons_eq h
      exact hx (ha ▸ List.mem_cons_self a x')
    | cons c u' =>
      simp only [List.cons_append] at h
      have hac : a = c := List.head_eq_of_cons_eq h
      have htail := List.tail_eq_of_cons_eq h
      have hx' : '_' ∉ x' := fun hm => hx (List.mem_cons_of_mem a hm)
      have hu' : '_' ∉ u' := fun hm => hu (List.mem_cons_of_mem c hm)
      obtain ⟨h1, h2⟩ := ih u' y v hx' hu' htail
      exact ⟨by rw [hac, h1], h2⟩

lemma underscore_split_right (a c b d : List Char)
    (hb : '_' ∉ b) (hd : '_' ∉ d)
    (h : a ++ '_' :: b = c ++ '_' :: d) : a = c ∧ b = d := by
  have hrev : b.reverse ++ '_' :: a.reverse = d.reverse ++ '_' :: c.reverse := by
    have := congrArg List.reverse h
    simp only [List.reverse_append, List.reverse_cons] at this
    simpa [List.append_assoc] using this
  have hbr : '_' ∉ b.reverse := by
    intro hm
    exact hb (List.mem_reverse.mp hm)
  have hdr : '_' ∉ d.reverse := by
    intro hm
    exact hd (List.mem_reverse.mp hm)
  obtain ⟨h1, h2⟩ := underscore_split_left b.reverse d.reverse a.reverse c.reverse
    hbr hdr hrev
  constructor
  · have := congrArg List.reverse h2
    simpa using this
  · have := congrArg List.reverse h1
    simpa using this

lemma string_ext (s t : String) (h : s.data = t.data) : s = t := by
  cases s
  cases t
  cases h
  rfl

lemma keyPair_data (s : String) (i : Int) :
    (keyPair (s, i)).data = s.data ++ '_' :: (toString i).data := by
  show ((s ++ "_") ++ toString i).data = _
  rw [String.data_append, String.data_append, List.append_assoc]
  rfl

lemma keyPair_inj (p q : String × Int) (h : keyPair p = keyPair q) : p = q := by
  obtain ⟨s1, i1⟩ := p
  obtain ⟨s2, i2⟩ := q
  have hdata := congrArg String.data h
  rw [keyPair_data, keyPair_data] at hdata
  obtain ⟨h1, h2⟩ := underscore_split_right s1.data s2.data
    (toString i1).data (toString i2).data
    (no_underscore_toString_int i1) (no_underscore_toString_int i2) hdata
  have hs : s1 = s2 := string_ext s1 s2 h1
  have hi : i1 = i2 := intToString_inj i1 i2 (string_ext _ _ h2)
  rw [hs, hi]

lemma key_of_eq_iff (r1 r2 : Row) :
    key_of r1 = key_of r2
      ↔ (r1.qasrl_id = r2.qasrl_id ∧ r1.verb_idx = r2.verb_idx) := by
  constructor
  · intro h
    have := keyPair_inj (predKey r1) (predKey r2) h
    exact ⟨congrArg Prod.fst this, congrArg Prod.snd this⟩
  · rintro ⟨h1, h2⟩
    show r1.qasrl_id ++ "_" ++ toString r1.verb_idx
      = r2.qasrl_id ++ "_" ++ toString r2.verb_idx
    rw [h1, h2]

lemma zip_self_map {β : Type} (l : List Row) (g : Row → β) :
    l.zip (l.map g) = l.map (fun a => (a, g a)) := by
  induction l with
  | nil => rfl
  | cons x xs ih => simp only [List.map_cons, List.zip_cons_cons, ih]

lemma dedup_map_inj {β : Type} [DecidableEq β] (f : (String × Int) → β)
    (hf : ∀ x y, f x = f y → x = y) :
    ∀ l : List (String × Int), (l.map f).dedup = l.dedup.map f := by
  intro l
  induction l with
  | nil => rfl
  | cons a t ih =>
    by_cases hmem : a ∈ t
    · have hfm : f a ∈ t.map f := List.mem_map.mpr ⟨a, hmem, rfl⟩
      rw [List.map_cons, List.dedup_cons_of_mem hfm, List.dedup_cons_of_mem hmem, ih]
    · have hfm : f a ∉ t.map f := by
        intro hm
        obtain ⟨b, hb, hfb⟩ := List.mem_map.mp hm
        exact hmem (hf b a hfb ▸ hb)
      rw [List.map_cons, List.dedup_cons_of_not_mem hfm,
        List.dedup_cons_of_not_mem hmem, ih, List.map_cons]

lemma gws_snd_keyless (df : DataFrame) (hkey : df.key_col = none) :
    (get_worker_statistics df).2
      = (sortedWorkers df.rows).map (fun w =>
          (w, { num_predicates :=
                  (((df.rows.zip (df.rows.map key_of)).filter
                    (fun p => p.1.worker_id = w)).map (fun p => p.2)).dedup.length,
                num_qas := (df.rows.filter (fun r => r.worker_id = w)).countP
                  (fun r => r.question.isSome) : BaseStats })) := by
  rw [get_worker_statistics]
  simp only [hkey, if_pos, Option.getD_some]

/-- C10: the key string `qasrl_id + "_" + str(verb_idx)` is injective — two
rows receive the same key exactly when they share the `(sentence_id,
predicate_index)` pair, because the digit string after the last underscore
determines the split uniquely — hence each worker's num-predicates count
(`nunique` over the key column) equals the number of distinct `PredicateKey`s
that worker touched. -/
theorem C10_key_injective_num_predicates :
    (∀ r1 r2 : Row, key_of r1 = key_of r2
        ↔ (r1.qasrl_id = r2.qasrl_id ∧ r1.verb_idx = r2.verb_idx))
    ∧ (∀ df : DataFrame, df.key_col = none →
        ∀ (w : String) (st : BaseStats),
          (w, st) ∈ (get_worker_statistics df).2 →
          st.num_predicates
            = ((df.rows.filter (fun r => r.worker_id = w)).map predKey).dedup.length) := by
  constructor
  · exact key_of_eq_iff
  · intro df hkey w st hmem
    rw [gws_snd_keyless df hkey] at hmem
    obtain ⟨w', hw', heq⟩ := List.mem_map.mp hmem
    rw [Prod.mk.injEq] at heq
    obtain ⟨rfl, hst⟩ := heq
    rw [← hst]
    show (((df.rows.zip (df.rows.map key_of)).filter
        (fun p => p.1.worker_id = w')).map (fun p => p.2)).dedup.length
      = ((df.rows.filter (fun r => r.worker_id = w')).map predKey).dedup.length
    rw [zip_self_map, List.filter_map, List.map_map]
    rw [show ((fun (p : Row × String) => p.2) ∘ fun r => (r, key_of r)) = key_of
      from rfl]
    rw [show ((fun (p : Row × String) => decide (p.1.worker_id = w'))
        ∘ fun r => (r, key_of r)) = (fun r => decide (r.worker_id = w')) from rfl]
    rw [show key_of = keyPair ∘ predKey from rfl, ← List.map_map]
    rw [dedup_map_inj keyPair keyPair_inj, List.length_map]

/-- C10 witness: the key-injectivity equivalence at two concrete rows and the
num-predicates identity at worker `alice` of the fixture table. -/
theorem C10_key_injective_num_predicates_witness :
    (key_of wRowA = key_of wRowC
        ↔ (wRowA.qasrl_id = wRowC.qasrl_id ∧ wRowA.verb_idx = wRowC.verb_idx))
    ∧ (⟨1, 1⟩ : BaseStats).num_predicates
        = ((testDf.rows.filter (fun r => r.worker_id = "alice")).map
            predKey).dedup.length :=
  ⟨C10_key_injective_num_predicates.1 wRowA wRowC,
   C10_key_injective_num_predicates.2 testDf rfl "alice" ⟨1, 1⟩ (by decide)⟩
